import Mathlib

/-!
# Verification of the htpack pack-file format, builder and HTTP handler

This file gives a shallow embedding of the htpack sources (the `packed`
loader, the `packer` builder and the `htpack` HTTP handler) and proves the
frozen claims about them.  Go `uint64` values are modelled as `Nat` with
explicit `% 2 ^ 64` wherever the Go code can overflow; Go pointers that may
be `nil` are modelled as `Option`; Go strings are modelled as `String` or,
where character-level reasoning is needed, as `List Char`.
-/

namespace Htpack

/-- The modulus `2 ^ 64` of Go `uint64` arithmetic. -/
def U64 : Nat := 2 ^ 64

/-- Go `uint64` addition (wraps on overflow). -/
def u64add (a b : Nat) : Nat := (a + b) % U64

/-- Magic number identifying .htpack files
(`internal/packed/load.go`, const `Magic`). -/
def Magic : Nat := 0xb6e61a4b415ed33b

/-- Version number of the initial packed format
(`internal/packed/load.go`, const `VersionInitial`). -/
def VersionInitial : Nat := 1

/-! ## Data model

Embeds the protobuf messages of the pack format (`packed.proto`): `Header`,
`FileData`, `File` and `Directory`.  `fixed64` fields become `Nat` (values
are kept `< U64` by hypothesis where it matters), message-typed fields that
are pointers in Go become `Option`. -/

/-- Embedding of `packed.FileData`: position of one encoding of a file
within the pack. -/
structure FileData where
  offset : Nat
  length : Nat
deriving DecidableEq, Repr

/-- Embedding of `packed.File`: a servable file (content type, etag and up
to three variants). -/
structure File where
  contentType : String
  etag : String
  uncompressed : Option FileData
  gzip : Option FileData
  brotli : Option FileData
deriving DecidableEq, Repr

/-- Embedding of `packed.Header`: the fixed-size record at offset 0 of a
pack. -/
structure Header where
  magic : Nat
  version : Nat
  directoryOffset : Nat
  directoryLength : Nat
deriving DecidableEq, Repr

/-! ## Pack format codec (claim C7)

Modelled from the spec: the generated protobuf `Marshal`/`Unmarshal` code for
`packed.Header` is not under `src/` (only the schema `packed.proto` is).  The
spec states the wire format: each of the four fields is emitted as a 1-byte
tag (field number `n` with wire type 1, i.e. byte `n*8 + 1`) followed by the
8-byte little-endian `fixed64` value, fields in schema order, zero-valued
fields omitted (proto3).  Bytes are modelled as `Nat` (values `< 256`). -/

/-- The 8 little-endian bytes of a `fixed64` value. -/
def toLE8 (v : Nat) : List Nat :=
  [v % 256, v / 2 ^ 8 % 256, v / 2 ^ 16 % 256, v / 2 ^ 24 % 256,
   v / 2 ^ 32 % 256, v / 2 ^ 40 % 256, v / 2 ^ 48 % 256, v / 2 ^ 56 % 256]

/-- Recombine 8 little-endian bytes into a value. -/
def fromLE8 (b0 b1 b2 b3 b4 b5 b6 b7 : Nat) : Nat :=
  b0 + 2 ^ 8 * b1 + 2 ^ 16 * b2 + 2 ^ 24 * b3 +
    2 ^ 32 * b4 + 2 ^ 40 * b5 + 2 ^ 48 * b6 + 2 ^ 56 * b7

/-- One `fixed64` field on the wire: tag byte `num*8 + 1` then the 8-byte
little-endian value; omitted when the value is zero (proto3 default). -/
def fixed64Field (num v : Nat) : List Nat :=
  if v = 0 then [] else (num * 8 + 1) :: toLE8 v

/-- Embedding of `Header.Marshal`: the four fields in schema order. -/
def headerMarshal (h : Header) : List Nat :=
  fixed64Field 1 h.magic ++ fixed64Field 2 h.version ++
    fixed64Field 3 h.directoryOffset ++ fixed64Field 4 h.directoryLength

/-- Decode a sequence of tag-prefixed `fixed64` records into
(field number, value) pairs; fails on any other wire type or a truncated
record. -/
def decodeFixed64Fields : List Nat → Option (List (Nat × Nat))
  | [] => some []
  | t :: b0 :: b1 :: b2 :: b3 :: b4 :: b5 :: b6 :: b7 :: rest =>
    if t % 8 = 1 then
      (decodeFixed64Fields rest).map
        (fun fs => (t / 8, fromLE8 b0 b1 b2 b3 b4 b5 b6 b7) :: fs)
    else none
  | _ => none

/-- Assign one decoded field into a `Header` by field number (unknown field
numbers are skipped, as protobuf decoders do). -/
def applyHeaderField (h : Header) (fv : Nat × Nat) : Header :=
  match fv.1 with
  | 1 => { h with magic := fv.2 }
  | 2 => { h with version := fv.2 }
  | 3 => { h with directoryOffset := fv.2 }
  | 4 => { h with directoryLength := fv.2 }
  | _ => h

/-- Embedding of `Header.Unmarshal`: decode the records and fold them into
a default-zero header. -/
def headerUnmarshal (bs : List Nat) : Option Header :=
  (decodeFixed64Fields bs).map
    (fun fs => fs.foldl applyHeaderField ⟨0, 0, 0, 0⟩)

theorem fromLE8_toLE8 (v : Nat) (hv : v < U64) :
    fromLE8 (v % 256) (v / 2 ^ 8 % 256) (v / 2 ^ 16 % 256) (v / 2 ^ 24 % 256)
      (v / 2 ^ 32 % 256) (v / 2 ^ 40 % 256) (v / 2 ^ 48 % 256)
      (v / 2 ^ 56 % 256) = v := by
  unfold fromLE8
  unfold U64 at hv
  omega

theorem decode_field_cons (num v : Nat) (rest : List Nat) (hv : v < U64) :
    decodeFixed64Fields ((num * 8 + 1) :: (toLE8 v ++ rest)) =
      (decodeFixed64Fields rest).map (fun fs => (num, v) :: fs) := by
  simp only [toLE8, List.cons_append, List.nil_append]
  rw [decodeFixed64Fields]
  rw [if_pos (by omega)]
  rw [fromLE8_toLE8 v hv, show (num * 8 + 1) / 8 = num by omega]

/-- Claim C7: for a header whose four fields are non-zero (and representable
as `uint64`), marshalling produces exactly 36 bytes — four repetitions of a
1-byte tag plus an 8-byte little-endian fixed64 value — and unmarshalling
those bytes yields the header again. -/
theorem header_roundtrip (h : Header)
    (hm : h.magic ≠ 0) (hv : h.version ≠ 0)
    (ho : h.directoryOffset ≠ 0) (hl : h.directoryLength ≠ 0)
    (bm : h.magic < U64) (bv : h.version < U64)
    (bo : h.directoryOffset < U64) (bl : h.directoryLength < U64) :
    (headerMarshal h).length = 36 ∧
      headerUnmarshal (headerMarshal h) = some h := by
  obtain ⟨m, v, o, l⟩ := h
  simp only [headerMarshal, fixed64Field] at *
  rw [if_neg hm, if_neg hv, if_neg ho, if_neg hl]
  constructor
  · simp [toLE8]
  · simp only [List.cons_append, List.append_assoc]
    rw [headerUnmarshal]
    rw [decode_field_cons 1 m _ bm, decode_field_cons 2 v _ bv,
      decode_field_cons 3 o _ bo]
    rw [show toLE8 l = toLE8 l ++ [] by simp]
    rw [decode_field_cons 4 l _ bl]
    rfl

/-- Witness for C7 at the concrete header the builder writes first
(magic, version 1, placeholder offsets 1/1). -/
theorem header_roundtrip_witness :
    (headerMarshal ⟨Magic, 1, 1, 1⟩).length = 36 ∧
      headerUnmarshal (headerMarshal ⟨Magic, 1, 1, 1⟩) =
        some ⟨Magic, 1, 1, 1⟩ :=
  header_roundtrip ⟨Magic, 1, 1, 1⟩ (by decide) (by decide) (by decide)
    (by decide) (by decide) (by decide) (by decide) (by decide)

/-! ## Path functions

Embeds the Go standard library functions used by the loader and the handler:
`path.IsAbs`, `path.Clean` (and its `filepath` twin, identical on Linux where
the separator is `'/'`), `filepath.Base` and `filepath.Dir`.  Paths are
`List Char`.  `clean` follows the documented semantics of `path.Clean`
(iteratively: replace runs of slashes by one slash, drop `.` elements, drop
a non-`..` element followed by `..`, drop `..` elements at the root; result
`""` becomes `"."`), implemented by processing the slash-separated segments
against a stack, which is equivalent to the lazybuf loop of the Go source. -/

/-- Implementation of Go `path.IsAbs`: non-empty and starting with a slash. -/
def isAbs : List Char → Bool
  | '/' :: _ => true
  | _ => false

/-- Split a character list on a separator, Go `strings.Split` style:
adjacent separators give empty segments, and the empty list gives one empty
segment. -/
def splitOnChar (sep : Char) : List Char → List (List Char)
  | [] => [[]]
  | c :: rest =>
    if c = sep then [] :: splitOnChar sep rest
    else
      match splitOnChar sep rest with
      | [] => [[c]]
      | s :: ss => (c :: s) :: ss

/-- Split a character list on `'/'`. -/
def splitSlash : List Char → List (List Char) :=
  splitOnChar '/'

/-- Join segments with single slashes. -/
def interSlash : List (List Char) → List Char
  | [] => []
  | [s] => s
  | s :: rest => s ++ '/' :: interSlash rest

/-- Effect of a `..` segment on the stack, per `path.Clean`: pop a
poppable element, keep the `..` when nothing can be popped in a relative
path, drop it at the root of a rooted path. -/
def dotdotStep (rooted : Bool) (stack : List (List Char)) : List (List Char) :=
  match stack with
  | [] => if rooted then [] else [['.', '.']]
  | top :: stack' =>
    if top = ['.', '.'] then ['.', '.'] :: top :: stack' else stack'

/-- Process the segments of a path against a stack (held in reverse:
head is the most recent element), per `path.Clean`: empty and `.` segments
are dropped, `..` acts through `dotdotStep`, other segments are pushed. -/
def cleanGo (rooted : Bool) : List (List Char) → List (List Char) → List (List Char)
  | stack, [] => stack
  | stack, seg :: rest =>
    if seg = [] ∨ seg = ['.'] then cleanGo rooted stack rest
    else if seg = ['.', '.'] then cleanGo rooted (dotdotStep rooted stack) rest
    else cleanGo rooted (seg :: stack) rest

/-- Implementation of Go `path.Clean`. -/
def clean (p : List Char) : List Char :=
  if p = [] then ['.']
  else
    let rooted := isAbs p
    let segs := (cleanGo rooted [] (splitSlash p)).reverse
    let out := interSlash segs
    let out := if rooted then '/' :: out else out
    if out = [] then ['.'] else out

/-! ## Loader (`internal/packed/load.go`) -/

/-- Enumeration of load-failure reasons (`packed.ErrorCause`). -/
inductive ErrorCause
  | headerUnmarshalError
  | directoryUnmarshalError
  | ioError
  | magicMismatch
  | versionTooNew
  | versionTooOld
  | badOffsetError
  | invalidPath
  | missingUncompressed
deriving DecidableEq, Repr

/-- Embedding of `packed.LoadError`.  The free-form `Underlying` message is
not modelled; the claims concern only the cause and the attached magic,
version and path (which default to zero values as in Go). -/
structure LoadErr where
  cause : ErrorCause
  magic : Nat := 0
  version : Nat := 0
  path : List Char := []
deriving DecidableEq, Repr

/-- Embedding of `packed.checkOffset`: no-op when an error is already
recorded or the variant is absent; otherwise records a `BadOffsetError`
(with the path) when `offset + length > fileSize` — computed, as in Go, with
wrapping `uint64` addition. -/
def checkOffset (err : Option LoadErr) (filename : List Char)
    (data : Option FileData) (fileSize : Nat) : Option LoadErr :=
  match err, data with
  | some e, _ => some e
  | none, none => none
  | none, some d =>
    if u64add d.offset d.length > fileSize then
      some { cause := .badOffsetError, path := filename }
    else none

/-- Chain of the three `checkOffset` calls of `packed.checkDirectory`
(uncompressed, then gzip, then brotli, each skipped once an error is
recorded). -/
def checkOffsets (filename : List Char) (info : File) (fileSize : Nat) :
    Option LoadErr :=
  checkOffset
    (checkOffset (checkOffset none filename info.uncompressed fileSize)
      filename info.gzip fileSize)
    filename info.brotli fileSize

/-- Loop body of `packed.checkDirectory` over the iteration sequence of the
directory map, carrying the set of already-seen paths.  For each entry: a
duplicate, relative or non-canonical path is an `InvalidPath` error carrying
the path (the free-form reason distinguishing the three cases is not
modelled); a missing uncompressed variant is `MissingUncompressed` with the
path; an out-of-bounds variant yields a fresh `BadOffsetError` without a
path (the Go code discards the path-carrying inner error). -/
def checkDirectoryGo (fileSize : Nat) :
    List (List Char) → List (List Char × File) → Option LoadErr
  | _, [] => none
  | seen, (filename, info) :: rest =>
    if filename ∈ seen ∨ ¬ isAbs filename ∨ clean filename ≠ filename then
      some { cause := .invalidPath, path := filename }
    else if info.uncompressed = none then
      some { cause := .missingUncompressed, path := filename }
    else
      match checkOffsets filename info fileSize with
      | some _ => some { cause := .badOffsetError }
      | none => checkDirectoryGo fileSize (filename :: seen) rest

/-- Embedding of `packed.checkDirectory`.  The Go function ranges over the
`map[string]*File`; the list is the iteration sequence of (path, file)
pairs. -/
def checkDirectory (dir : List (List Char × File)) (fileSize : Nat) :
    Option LoadErr :=
  checkDirectoryGo fileSize [] dir

/-- Validation part of `packed.loadHeader` (after unmarshalling): magic
must match, version must be exactly `VersionInitial`; errors attach the
observed magic and version. -/
def loadHeaderCheck (hdr : Header) : Option LoadErr :=
  if hdr.magic ≠ Magic then
    some { cause := .magicMismatch, magic := hdr.magic, version := hdr.version }
  else if hdr.version < VersionInitial then
    some { cause := .versionTooOld, magic := hdr.magic, version := hdr.version }
  else if hdr.version > VersionInitial then
    some { cause := .versionTooNew, magic := hdr.magic, version := hdr.version }
  else none

/-- Bounds check of `packed.loadDirectory`: the directory blob must lie
within the file; the sum is computed, as in Go, with wrapping `uint64`
addition. -/
def directoryBoundsCheck (hdr : Header) (fileSize : Nat) : Option LoadErr :=
  if u64add hdr.directoryOffset hdr.directoryLength > fileSize then
    some { cause := .badOffsetError }
  else none

/-- Claim C6: header validation fails with `MagicMismatch` (attaching the
observed magic) exactly when the magic differs from the sentinel, with
`VersionTooOld`/`VersionTooNew` exactly when the magic matches and the
version is below/above 1, and passes for magic = sentinel, version = 1.
The directory bounds check fails with `BadOffsetError` exactly when
`directory_offset + directory_length > file_size`, **provided the sum does
not overflow `uint64`**: the final conjunct exhibits the overflow input
(`directory_offset = 2^64 - 1`, `directory_length = 2`, `file_size = 36`)
on which the Go code wraps the sum to 1 and accepts, although the
directory lies far outside the file. -/
theorem load_header_validation :
    (∀ h : Header,
      ((∃ e, loadHeaderCheck h = some e ∧ e.cause = .magicMismatch ∧
          e.magic = h.magic) ↔ h.magic ≠ Magic) ∧
      ((∃ e, loadHeaderCheck h = some e ∧ e.cause = .versionTooOld ∧
          e.version = h.version) ↔ h.magic = Magic ∧ h.version < VersionInitial) ∧
      ((∃ e, loadHeaderCheck h = some e ∧ e.cause = .versionTooNew ∧
          e.version = h.version) ↔ h.magic = Magic ∧ h.version > VersionInitial) ∧
      (loadHeaderCheck h = none ↔ h.magic = Magic ∧ h.version = VersionInitial)) ∧
    (∀ (h : Header) (fileSize : Nat),
      h.directoryOffset + h.directoryLength < U64 →
      (directoryBoundsCheck h fileSize = some { cause := .badOffsetError } ↔
        h.directoryOffset + h.directoryLength > fileSize)) ∧
    (directoryBoundsCheck ⟨Magic, 1, U64 - 1, 2⟩ 36 = none ∧
      U64 - 1 + 2 > 36) := by
  refine ⟨?_, ?_, ?_⟩
  · intro h
    unfold loadHeaderCheck
    split_ifs with h1 h2 h3
    · refine ⟨?_, ?_, ?_, ?_⟩ <;> simp [h1]
    · have h1' : h.magic = Magic := not_not.mp h1
      refine ⟨?_, ?_, ?_, ?_⟩ <;> simp [h1', h2] <;> omega
    · have h1' : h.magic = Magic := not_not.mp h1
      refine ⟨?_, ?_, ?_, ?_⟩ <;> simp [h1', h2, h3] <;> omega
    · have h1' : h.magic = Magic := not_not.mp h1
      have hv : h.version = VersionInitial := by omega
      refine ⟨?_, ?_, ?_, ?_⟩ <;> simp [h1', hv]
  · intro h fileSize hov
    unfold directoryBoundsCheck u64add
    rw [Nat.mod_eq_of_lt hov]
    split_ifs with hgt <;> simp [hgt]
  · constructor
    · decide
    · decide

/-- Test of one optional variant against the file size, as `checkOffset`
performs it (true when the variant is absent or its wrapped-sum range fits). -/
def fileDataOK (d : Option FileData) (fileSize : Nat) : Bool :=
  match d with
  | none => true
  | some x => u64add x.offset x.length ≤ fileSize

/-- Everything `checkDirectory` verifies about a single entry. -/
def entryOK (fileSize : Nat) (e : List Char × File) : Bool :=
  isAbs e.1 && decide (clean e.1 = e.1) && e.2.uncompressed.isSome &&
    fileDataOK e.2.uncompressed fileSize && fileDataOK e.2.gzip fileSize &&
    fileDataOK e.2.brotli fileSize

theorem checkOffset_eq_none (err : Option LoadErr) (p : List Char)
    (d : Option FileData) (fs : Nat) :
    checkOffset err p d fs = none ↔ err = none ∧ fileDataOK d fs = true := by
  cases err <;> cases d <;> simp [checkOffset, fileDataOK]

theorem checkOffsets_eq_none (p : List Char) (f : File) (fs : Nat) :
    checkOffsets p f fs = none ↔
      fileDataOK f.uncompressed fs = true ∧ fileDataOK f.gzip fs = true ∧
        fileDataOK f.brotli fs = true := by
  unfold checkOffsets
  rw [checkOffset_eq_none, checkOffset_eq_none, checkOffset_eq_none]
  tauto

theorem checkDirectoryGo_eq_none (fileSize : Nat)
    (dir : List (List Char × File)) :
    ∀ seen, checkDirectoryGo fileSize seen dir = none ↔
      ((dir.map Prod.fst).Nodup ∧ (∀ k ∈ dir.map Prod.fst, k ∉ seen) ∧
        ∀ e ∈ dir, entryOK fileSize e = true) := by
  induction dir with
  | nil => intro seen; simp [checkDirectoryGo]
  | cons e rest ih =>
    obtain ⟨p, f⟩ := e
    intro seen
    rw [checkDirectoryGo]
    split_ifs with hbad hmiss
    · have hno : ¬ (((((p, f) :: rest).map Prod.fst).Nodup ∧
          (∀ k ∈ ((p, f) :: rest).map Prod.fst, k ∉ seen) ∧
          ∀ e ∈ (p, f) :: rest, entryOK fileSize e = true)) := by
        rintro ⟨hnd, hsn, hall⟩
        rcases hbad with hb | hb | hb
        · exact (hsn p (List.mem_cons_self _ _)) hb
        · have := hall (p, f) (List.mem_cons_self _ _)
          simp [entryOK, hb] at this
        · have := hall (p, f) (List.mem_cons_self _ _)
          simp [entryOK, hb] at this
      constructor
      · intro h; cases h
      · intro h; exact (hno h).elim
    · constructor
      · intro h; cases h
      · intro h
        have := h.2.2 (p, f) (List.mem_cons_self _ _)
        simp [entryOK, hmiss] at this
    · cases herr : checkOffsets p f fileSize with
      | some e0 =>
        constructor
        · intro h; cases h
        · intro h
          have hok := h.2.2 (p, f) (List.mem_cons_self _ _)
          simp only [entryOK, Bool.and_eq_true] at hok
          have : checkOffsets p f fileSize = none :=
            (checkOffsets_eq_none p f fileSize).mpr
              ⟨hok.1.1.2, hok.1.2, hok.2⟩
          rw [this] at herr; cases herr
      | none =>
        rw [ih (p :: seen)]
        push_neg at hbad
        have hos := (checkOffsets_eq_none p f fileSize).mp herr
        constructor
        · rintro ⟨hnd, hsn, hall⟩
          refine ⟨?_, ?_, ?_⟩
          · simp only [List.map_cons, List.nodup_cons]
            exact ⟨fun hc => (hsn _ hc) (by simp), hnd⟩
          · intro k hk hks
            rcases List.mem_cons.mp hk with hk | hk
            · subst hk; exact hbad.1 hks
            · exact (hsn k hk) (List.mem_cons_of_mem _ hks)
          · intro x hx
            rcases List.mem_cons.mp hx with hx | hx
            · subst hx
              simp [entryOK, hbad.2.1, hbad.2.2, hos.1, hos.2.1, hos.2.2,
                Option.isSome_iff_ne_none, hmiss]
            · exact hall x hx
        · rintro ⟨hnd, hsn, hall⟩
          simp only [List.map_cons, List.nodup_cons] at hnd
          refine ⟨hnd.2, ?_, fun x hx => hall x (List.mem_cons_of_mem _ hx)⟩
          intro k hk hks
          rcases List.mem_cons.mp hks with hks | hks
          · subst hks; exact hnd.1 hk
          · exact (hsn k (List.mem_cons_of_mem _ hk)) hks

theorem checkDirectoryGo_eq_some (fileSize : Nat)
    (dir : List (List Char × File)) :
    ∀ seen e, checkDirectoryGo fileSize seen dir = some e →
      (e.cause = .invalidPath ∧ (∃ f, (e.path, f) ∈ dir) ∧
        (e.path ∈ seen ∨ 2 ≤ (dir.map Prod.fst).count e.path ∨
          ¬ isAbs e.path ∨ clean e.path ≠ e.path)) ∨
      (e.cause = .missingUncompressed ∧
        ∃ f, (e.path, f) ∈ dir ∧ f.uncompressed = none) ∨
      (e.cause = .badOffsetError ∧
        ∃ p f, (p, f) ∈ dir ∧
          (fileDataOK f.uncompressed fileSize = false ∨
            fileDataOK f.gzip fileSize = false ∨
            fileDataOK f.brotli fileSize = false)) := by
  induction dir with
  | nil => intro seen e h; cases h
  | cons hd rest ih =>
    obtain ⟨p, f⟩ := hd
    intro seen e h
    rw [checkDirectoryGo] at h
    split_ifs at h with hbad hmiss
    · cases h
      refine Or.inl ⟨rfl, ⟨f, List.mem_cons_self _ _⟩, ?_⟩
      rcases hbad with hb | hb | hb
      · exact Or.inl hb
      · exact Or.inr (Or.inr (Or.inl hb))
      · exact Or.inr (Or.inr (Or.inr hb))
    · cases h
      exact Or.inr (Or.inl ⟨rfl, f, List.mem_cons_self _ _, hmiss⟩)
    · revert h
      cases herr : checkOffsets p f fileSize with
      | some e0 =>
        intro h
        cases h
        refine Or.inr (Or.inr ⟨rfl, p, f, List.mem_cons_self _ _, ?_⟩)
        by_contra hall
        push_neg at hall
        simp only [Bool.not_eq_false] at hall
        rw [(checkOffsets_eq_none p f fileSize).mpr
          ⟨hall.1, hall.2.1, hall.2.2⟩] at herr
        cases herr
      | none =>
        intro h
        rcases ih (p :: seen) e h with
          ⟨hc, ⟨f', hf'⟩, hwhy⟩ | ⟨hc, f', hf', hu⟩ | ⟨hc, p', f', hf', hv⟩
        · refine Or.inl ⟨hc, ⟨f', List.mem_cons_of_mem _ hf'⟩, ?_⟩
          rcases hwhy with hw | hw | hw | hw
          · rcases List.mem_cons.mp hw with hw | hw
            · subst hw
              refine Or.inr (Or.inl ?_)
              have h1 : e.path ∈ rest.map Prod.fst :=
                List.mem_map_of_mem Prod.fst hf'
              have := List.count_pos_iff.mpr h1
              simp only [List.map_cons, List.count_cons_self]
              omega
            · exact Or.inl hw
          · refine Or.inr (Or.inl ?_)
            simp only [List.map_cons, List.count_cons]
            omega
          · exact Or.inr (Or.inr (Or.inl hw))
          · exact Or.inr (Or.inr (Or.inr hw))
        · exact Or.inr (Or.inl ⟨hc, f', List.mem_cons_of_mem _ hf', hu⟩)
        · exact Or.inr (Or.inr ⟨hc, p', f', List.mem_cons_of_mem _ hf', hv⟩)

/-- Proposition that an optional variant, when present, lies within the
first `bound` bytes (with true natural-number addition). -/
def withinOpt (d : Option FileData) (bound : Nat) : Prop :=
  ∀ x, d = some x → x.offset + x.length ≤ bound

instance (d : Option FileData) (bound : Nat) : Decidable (withinOpt d bound) :=
  match d with
  | none => isTrue (by intro x h; cases h)
  | some x =>
    if h : x.offset + x.length ≤ bound then
      isTrue (by intro y hy; cases hy; exact h)
    else isFalse (fun hall => h (hall x rfl))

theorem fileDataOK_iff_withinOpt (d : Option FileData) (fs : Nat)
    (hov : withinOpt d (U64 - 1)) :
    fileDataOK d fs = true ↔ withinOpt d fs := by
  cases d with
  | none =>
    simp only [fileDataOK, withinOpt]
    constructor
    · intro _ x h; cases h
    · intro _; trivial
  | some x =>
    have hb : x.offset + x.length < U64 := by
      have := hov x rfl
      have : (0 : Nat) < U64 := by decide
      omega
    simp only [fileDataOK, withinOpt, u64add, Nat.mod_eq_of_lt hb,
      decide_eq_true_eq]
    constructor
    · intro h y hy; cases hy; exact h
    · intro h; exact h x rfl

/-- Claim C5: the directory check succeeds exactly on directories whose
iteration sequence has pairwise-distinct, absolute, canonical paths, a
present uncompressed variant for every entry, and all present variants
within the file; any failure is an `InvalidPath` error carrying a
duplicate, relative or non-canonical path, a `MissingUncompressed` error
carrying a path whose uncompressed variant is absent, or a
`BadOffsetError` for some present variant reaching past the file end.
Both bound statements assume the variant ranges do not overflow `uint64`
(`withinOpt … (U64 - 1)`): the final conjunct exhibits the overflow input
(a variant at `offset = 2^64 - 1`, `length = 2`, `file_size = 36`) that the
Go code accepts because the wrapping sum is 1, although the range lies far
outside the file. -/
theorem directory_check_correct :
    (∀ (dir : List (List Char × File)) (fileSize : Nat),
      (∀ e ∈ dir, withinOpt e.2.uncompressed (U64 - 1) ∧
        withinOpt e.2.gzip (U64 - 1) ∧ withinOpt e.2.brotli (U64 - 1)) →
      (checkDirectory dir fileSize = none ↔
        ((dir.map Prod.fst).Nodup ∧
          ∀ e ∈ dir, isAbs e.1 ∧ clean e.1 = e.1 ∧
            e.2.uncompressed ≠ none ∧ withinOpt e.2.uncompressed fileSize ∧
            withinOpt e.2.gzip fileSize ∧ withinOpt e.2.brotli fileSize))) ∧
    (∀ (dir : List (List Char × File)) (fileSize : Nat) (e : LoadErr),
      (∀ e ∈ dir, withinOpt e.2.uncompressed (U64 - 1) ∧
        withinOpt e.2.gzip (U64 - 1) ∧ withinOpt e.2.brotli (U64 - 1)) →
      checkDirectory dir fileSize = some e →
      (e.cause = .invalidPath ∧ (∃ f, (e.path, f) ∈ dir) ∧
        (2 ≤ (dir.map Prod.fst).count e.path ∨ ¬ isAbs e.path ∨
          clean e.path ≠ e.path)) ∨
      (e.cause = .missingUncompressed ∧
        ∃ f, (e.path, f) ∈ dir ∧ f.uncompressed = none) ∨
      (e.cause = .badOffsetError ∧
        ∃ p f, (p, f) ∈ dir ∧
          ¬ (withinOpt f.uncompressed fileSize ∧
            withinOpt f.gzip fileSize ∧ withinOpt f.brotli fileSize))) ∧
    (checkDirectory
        [(['/', 'a'],
          ⟨"text/plain", "\x22tag\x22", some ⟨U64 - 1, 2⟩, none, none⟩)]
        36 = none ∧
      U64 - 1 + 2 > 36) := by
  refine ⟨?_, ?_, ?_, ?_⟩
  · intro dir fileSize hov
    rw [checkDirectory, checkDirectoryGo_eq_none]
    constructor
    · rintro ⟨hnd, _, hall⟩
      refine ⟨hnd, fun e he => ?_⟩
      have h1 := hall e he
      have h2 := hov e he
      simp only [entryOK, Bool.and_eq_true, decide_eq_true_eq] at h1
      refine ⟨h1.1.1.1.1.1, h1.1.1.1.1.2, ?_, ?_, ?_, ?_⟩
      · intro hu; rw [hu] at h1; simp at h1
      · exact (fileDataOK_iff_withinOpt _ _ h2.1).mp h1.1.1.2
      · exact (fileDataOK_iff_withinOpt _ _ h2.2.1).mp h1.1.2
      · exact (fileDataOK_iff_withinOpt _ _ h2.2.2).mp h1.2
    · rintro ⟨hnd, hall⟩
      refine ⟨hnd, fun k _ hk => (List.not_mem_nil k hk), fun e he => ?_⟩
      have h1 := hall e he
      have h2 := hov e he
      simp only [entryOK, Bool.and_eq_true, decide_eq_true_eq]
      refine ⟨⟨⟨⟨⟨h1.1, h1.2.1⟩, ?_⟩,
        (fileDataOK_iff_withinOpt _ _ h2.1).mpr h1.2.2.2.1⟩,
        (fileDataOK_iff_withinOpt _ _ h2.2.1).mpr h1.2.2.2.2.1⟩,
        (fileDataOK_iff_withinOpt _ _ h2.2.2).mpr h1.2.2.2.2.2⟩
      exact Option.isSome_iff_ne_none.mpr h1.2.2.1
  · intro dir fileSize e hov h
    rcases checkDirectoryGo_eq_some fileSize dir [] e h with
      ⟨hc, hmem, hwhy⟩ | hrest | ⟨hc, p, f, hpf, hv⟩
    · refine Or.inl ⟨hc, hmem, ?_⟩
      rcases hwhy with hw | hw | hw | hw
      · cases hw
      · exact Or.inl hw
      · exact Or.inr (Or.inl hw)
      · exact Or.inr (Or.inr hw)
    · exact Or.inr (Or.inl hrest)
    · refine Or.inr (Or.inr ⟨hc, p, f, hpf, ?_⟩)
      have h2 := hov (p, f) hpf
      rintro ⟨w1, w2, w3⟩
      rcases hv with hv | hv | hv <;> rw [Bool.eq_false_iff] at hv
      · exact hv ((fileDataOK_iff_withinOpt _ _ h2.1).mpr w1)
      · exact hv ((fileDataOK_iff_withinOpt _ _ h2.2.1).mpr w2)
      · exact hv ((fileDataOK_iff_withinOpt _ _ h2.2.2).mpr w3)
  · decide
  · decide

/-- Witness for C5: a one-entry directory with an absolute canonical path,
a present uncompressed variant and an in-bounds range passes the check. -/
theorem directory_check_correct_witness :
    checkDirectory
      [(['/', 'a'], ⟨"text/plain", "\x22tag\x22", some ⟨4096, 10⟩, none, none⟩)]
      8192 = none := by
  have t := directory_check_correct
  exact (t.1 _ 8192 (by decide)).mpr (by decide)

/-- Witness for C6: a valid header passes, and a directory blob reaching
past the end of the file is rejected with `BadOffsetError` when the sum does
not overflow. -/
theorem load_header_validation_witness :
    loadHeaderCheck ⟨Magic, 1, 100, 200⟩ = none ∧
      directoryBoundsCheck ⟨Magic, 1, 100, 200⟩ 250 =
        some { cause := .badOffsetError } := by
  have t := load_header_validation
  constructor
  · exact (t.1 ⟨Magic, 1, 100, 200⟩).2.2.2.mpr ⟨rfl, rfl⟩
  · exact (t.2.1 ⟨Magic, 1, 100, 200⟩ 250 (by decide)).mpr (by decide)

/-! ## HTTP handler (`handler.go`)

Per-request processing is modelled from the point where the directory entry
has been found (`ServeHTTP` line 137 onward).  `time.Time` values are
modelled as `Int` (with `After` as `<`), and the standard-library HTTP date
parser `http.ParseTime` is passed in as a function `String → Option Int`.
Header lookups follow Go's `Header.Get`, which returns `""` for an absent
header; `If-None-Match` is an `Option String` because the code additionally
tests the header's presence. -/

/-- Go `unicode.IsSpace` restricted to ASCII (space and the control range
tab through carriage return); HTTP header values contain no other
whitespace. -/
def isSpaceGo (c : Char) : Bool :=
  c.toNat = 32 || (9 ≤ c.toNat && c.toNat ≤ 13)

/-- Embedding of Go `strings.TrimSpace`: drop whitespace from both ends. -/
def trimSpace (s : String) : String :=
  ⟨((s.data.dropWhile isSpaceGo).reverse.dropWhile isSpaceGo).reverse⟩

/-- Embedding of Go `strings.Split(s, ",")`. -/
def splitComma (s : String) : List String :=
  (splitOnChar ',' s.data).map String.mk

/-- Constant `encodingGzip` of `handler.go`. -/
def encodingGzip : String := "gzip"

/-- Constant `encodingBrotli` of `handler.go`. -/
def encodingBrotli : String := "br"

/-- Embedding of `acceptedEncodings`: split the `Accept-Encoding` value on
commas and record whether any element trims to exactly `"gzip"` / `"br"`. -/
def acceptedEncodings (acceptEncoding : String) : Bool × Bool :=
  (splitComma acceptEncoding).foldl
    (fun acc enc =>
      if trimSpace enc = encodingGzip then (true, acc.2)
      else if trimSpace enc = encodingBrotli then (acc.1, true)
      else acc)
    (false, false)

/-- Embedding of the compression-selection block of `ServeHTTP`
(lines 149–158): brotli when accepted and present, else gzip when accepted
and present, else the uncompressed variant; the second component is the
`Content-Encoding` header value (none = header not set). -/
def selectEncoding (info : File) (acceptEncoding : String) :
    Option FileData × Option String :=
  let enc := acceptedEncodings acceptEncoding
  if enc.2 ∧ info.brotli.isSome then (info.brotli, some encodingBrotli)
  else if enc.1 ∧ info.gzip.isSome then (info.gzip, some encodingGzip)
  else (info.uncompressed, none)

/-- Embedding of `clientHasCachedVersion`: the `If-None-Match` elements are
checked against the etag; when that header is present its result is
definitive; otherwise `If-Modified-Since` is parsed and compared against
the handler start time. -/
def clientHasCachedVersion (etag : String) (startTime : Int)
    (parseTime : String → Option Int) (ifNoneMatch : Option String)
    (ifModifiedSince : String) : Bool :=
  let checkEtags := ifNoneMatch.getD ""
  if (splitComma checkEtags).any (fun check => etag = trimSpace check) then
    true
  else if ifNoneMatch.isSome then
    false
  else
    match parseTime ifModifiedSince with
    | none => false
    | some cachedTime => startTime < cachedTime

/-- Embedding of `strconv.ParseUint(s, 10, 64)`: a non-empty all-digit
string whose value fits in 64 bits. -/
def parseU64 (s : List Char) : Option Nat :=
  if s ≠ [] ∧ s.all (fun c => c.isDigit) then
    let n := s.foldl (fun acc c => acc * 10 + (c.toNat - 48)) 0
    if n < U64 then some n else none
  else none

/-- Split at the first `'-'` (Go `strings.IndexByte(r, '-')` plus the two
slices around it); `none` when there is no dash. -/
def splitOnFirstDash : List Char → Option (List Char × List Char)
  | [] => none
  | '-' :: rest => some ([], rest)
  | c :: rest => (splitOnFirstDash rest).map (fun pr => (c :: pr.1, pr.2))

/-- Combined `strings.HasPrefix(r, "bytes=")` test and
`strings.TrimPrefix(r, "bytes=")`: `none` when the prefix is absent. -/
def stripBytesPrefix : List Char → Option (List Char)
  | 'b' :: 'y' :: 't' :: 'e' :: 's' :: '=' :: r => some r
  | _ => none

/-- Embedding of `getFileRange`: returns (offset, length, isPartial) for
the selected variant `data`, falling back to the whole variant on any
malformed or out-of-bounds `Range` header. -/
def getFileRange (data : FileData) (rangeHeader : String) :
    Nat × Nat × Bool :=
  match stripBytesPrefix rangeHeader.data with
  | none => (0, data.length, false)
  | some r =>
    match splitOnFirstDash r with
    | none => (0, data.length, false)
    | some (sfrom, sto) =>
      match parseU64 sfrom, parseU64 sto with
      | some lo, some hi =>
        if lo > hi ∨ lo ≥ data.length ∨ hi ≥ data.length then
          (0, data.length, false)
        else (lo, hi - lo + 1, true)
      | _, _ => (0, data.length, false)

/-- The request fields consulted by the handler after the path lookup. -/
structure Request where
  method : String
  acceptEncoding : String
  ifNoneMatch : Option String
  ifModifiedSince : String
  rangeHeader : String

/-- The response facts the claims are about: status code, the
`Content-Encoding`, `Content-Range` and `Content-Length` headers, and the
transmitted pack-file slice (absolute offset and length; `none` for no
body). -/
structure Response where
  status : Nat
  contentEncoding : Option String
  contentRange : Option String
  contentLength : Option Nat
  body : Option (Nat × Nat)
deriving DecidableEq, Repr

/-- Formatting of the `Content-Range` value
`fmt.Sprintf("bytes %d-%d/%d", …)`. -/
def formatContentRange (lo hi total : Nat) : String :=
  "bytes " ++ toString lo ++ "-" ++ toString hi ++ "/" ++ toString total

/-- Embedding of `ServeHTTP` from the conditional-request step onward
(lines 143–181), for a request whose method passed the gate and whose path
resolved to `info`: conditional-request short-circuit, encoding selection,
range parsing, response headers/status, and the transmitted slice
(`sendfile(data, offset, length)` sends pack bytes
`[data.offset + offset, data.offset + offset + length)`).  Returns `none`
when the entry has no uncompressed variant (the Go code would dereference
nil; the loader guarantees presence). -/
def serveExisting (info : File) (startTime : Int)
    (parseTime : String → Option Int) (req : Request) : Option Response :=
  if clientHasCachedVersion info.etag startTime parseTime req.ifNoneMatch
      req.ifModifiedSince then
    some ⟨304, none, none, none, none⟩
  else
    let sel := selectEncoding info req.acceptEncoding
    match sel.1 with
    | none => none
    | some data =>
      let r := getFileRange data req.rangeHeader
      some
        { status := if r.2.2 then 206 else 200
          contentEncoding := sel.2
          contentRange :=
            if r.2.2 then
              some (formatContentRange r.1 (r.1 + r.2.1 - 1) data.length)
            else none
          contentLength := some r.2.1
          body :=
            if req.method = "HEAD" then none
            else some (data.offset + r.1, r.2.1) }

theorem acceptedEncodings_foldl (l : List String) (a b : Bool) :
    l.foldl
      (fun acc enc =>
        if trimSpace enc = encodingGzip then (true, acc.2)
        else if trimSpace enc = encodingBrotli then (acc.1, true)
        else acc)
      (a, b) =
      (a || l.any (fun e => trimSpace e = encodingGzip),
        b || l.any (fun e => trimSpace e = encodingBrotli)) := by
  induction l generalizing a b with
  | nil => simp
  | cons e rest ih =>
    simp only [List.foldl_cons, List.any_cons]
    by_cases hg : trimSpace e = encodingGzip
    · have hb : ¬ trimSpace e = encodingBrotli := by
        rw [hg]; decide
      rw [if_pos hg, ih, decide_eq_true hg, decide_eq_false hb]
      simp
    · rw [if_neg hg, decide_eq_false hg]
      by_cases hb : trimSpace e = encodingBrotli
      · rw [if_pos hb, ih, decide_eq_true hb]
        simp
      · rw [if_neg hb, decide_eq_false hb, ih]
        simp

theorem mem_map_trim_iff_any (l : List String) (s : String) :
    (s ∈ l.map trimSpace) ↔ (l.any (fun e => trimSpace e = s) = true) := by
  rw [List.any_eq_true, List.mem_map]
  constructor
  · rintro ⟨x, hx, he⟩
    exact ⟨x, hx, by simp [he]⟩
  · rintro ⟨x, hx, he⟩
    simp only [decide_eq_true_eq] at he
    exact ⟨x, hx, he⟩

theorem acceptedEncodings_eq (ae : String) :
    acceptedEncodings ae =
      ((splitComma ae).any (fun e => trimSpace e = encodingGzip),
        (splitComma ae).any (fun e => trimSpace e = encodingBrotli)) := by
  unfold acceptedEncodings
  rw [acceptedEncodings_foldl]
  simp

/-- Amended claim C1: encoding selection parses `Accept-Encoding` by
splitting on commas and trimming whitespace, and serves brotli
(`Content-Encoding: br`) when some element is exactly `"br"` and the entry
has a brotli variant, else gzip (`Content-Encoding: gzip`) when some
element is exactly `"gzip"` and the entry has a gzip variant, else the
uncompressed variant with no `Content-Encoding`.  Amendment: an element
carrying a quality value (e.g. `br;q=0.8`) is **not** recognised — only an
element that trims to exactly `br`/`gzip` counts (the original claim said
quality values are ignored with presence sufficient).  The second conjunct
ties the served `Content-Encoding` header to this selection for every
non-304 response. -/
theorem encoding_selection :
    (∀ (info : File) (ae : String),
      selectEncoding info ae =
        if "br" ∈ (splitComma ae).map trimSpace ∧ info.brotli.isSome then
          (info.brotli, some "br")
        else if "gzip" ∈ (splitComma ae).map trimSpace ∧ info.gzip.isSome then
          (info.gzip, some "gzip")
        else (info.uncompressed, none)) ∧
    (∀ (info : File) (st : Int) (pt : String → Option Int) (req : Request)
        (resp : Response),
      serveExisting info st pt req = some resp → resp.status ≠ 304 →
      resp.contentEncoding = (selectEncoding info req.acceptEncoding).2) := by
  constructor
  · intro info ae
    have hbr : ("br" ∈ (splitComma ae).map trimSpace) ↔
        ((splitComma ae).any (fun e => trimSpace e = encodingBrotli) = true) :=
      mem_map_trim_iff_any (splitComma ae) encodingBrotli
    have hgz : ("gzip" ∈ (splitComma ae).map trimSpace) ↔
        ((splitComma ae).any (fun e => trimSpace e = encodingGzip) = true) :=
      mem_map_trim_iff_any (splitComma ae) encodingGzip
    unfold selectEncoding
    rw [acceptedEncodings_eq]
    cases hb1 : (splitComma ae).any (fun e => trimSpace e = encodingBrotli) with
    | false =>
      have hm1 : ¬ ("br" ∈ (splitComma ae).map trimSpace) := by
        intro hm; rw [hbr.mp hm] at hb1; cases hb1
      cases hg1 : (splitComma ae).any (fun e => trimSpace e = encodingGzip) with
      | false =>
        have hm3 : ¬ ("gzip" ∈ (splitComma ae).map trimSpace) := by
          intro hm; rw [hgz.mp hm] at hg1; cases hg1
        simp [hm1, hm3, encodingGzip, encodingBrotli]
      | true =>
        have hm3 : "gzip" ∈ (splitComma ae).map trimSpace := hgz.mpr hg1
        simp [hm1, hm3, encodingGzip, encodingBrotli]
    | true =>
      have hm1 : "br" ∈ (splitComma ae).map trimSpace := hbr.mpr hb1
      cases hg1 : (splitComma ae).any (fun e => trimSpace e = encodingGzip) with
      | false =>
        have hm3 : ¬ ("gzip" ∈ (splitComma ae).map trimSpace) := by
          intro hm; rw [hgz.mp hm] at hg1; cases hg1
        simp [hm1, hm3, encodingGzip, encodingBrotli]
      | true =>
        have hm3 : "gzip" ∈ (splitComma ae).map trimSpace := hgz.mpr hg1
        simp [hm1, hm3, encodingGzip, encodingBrotli]
  · intro info st pt req resp h hs
    simp only [serveExisting] at h
    split_ifs at h with hc
    · cases h
      exact absurd rfl hs
    all_goals
      revert h
      cases hsel : (selectEncoding info req.acceptEncoding).1 with
      | none => intro h; cases h
      | some data =>
        intro h
        cases h
        rfl

/-- A concrete entry with all three variants present, used by the handler
witnesses. -/
def exampleFile : File :=
  ⟨"text/plain", "\x22x\x22", some ⟨4096, 100⟩, some ⟨8192, 50⟩,
    some ⟨12288, 40⟩⟩

/-- Counterexample to claim C1 as stated: with
`Accept-Encoding: gzip, br;q=1.0` the element `br;q=1.0` lists `br` (with a
quality value), and the entry has a brotli variant, so the claim requires
the brotli variant with `Content-Encoding: br`; the code serves the gzip
variant with `Content-Encoding: gzip` because `br;q=1.0` does not trim to
exactly `br`. -/
theorem encoding_selection_counterexample :
    exampleFile.brotli.isSome = true ∧
      selectEncoding exampleFile "gzip, br;q=1.0" =
        (exampleFile.gzip, some "gzip") := by
  constructor
  · rfl
  · decide

/-- Witness for C1: a non-304 response for a request accepting `br` carries
`Content-Encoding: br`. -/
theorem encoding_selection_witness :
    (Response.contentEncoding ⟨200, some "br", none, some 40,
        some (12288, 40)⟩) =
      (selectEncoding exampleFile "br").2 :=
  encoding_selection.2 exampleFile 0 (fun _ => none)
    ⟨"GET", "br", none, "", ""⟩ _ (by decide) (by decide)

/-- Claim C4: with `If-None-Match` present, its value is split on commas,
each element is trimmed, and the result is a cache hit (304) exactly when
some element equals the entry's etag; the result then never depends on
`If-Modified-Since` or on the date parser.  Only with `If-None-Match`
absent is `If-Modified-Since` parsed, yielding a cache hit exactly when it
parses and the parsed time is after the handler's start time (the entry
etag is never empty — it has the quoted form `"1--<hex>"`). -/
theorem conditional_request :
    (∀ (etag : String) (st : Int) (pt : String → Option Int) (s ims : String),
      (clientHasCachedVersion etag st pt (some s) ims = true ↔
        ∃ e ∈ splitComma s, trimSpace e = etag)) ∧
    (∀ (etag : String) (st : Int) (pt pt' : String → Option Int)
        (s ims ims' : String),
      clientHasCachedVersion etag st pt (some s) ims =
        clientHasCachedVersion etag st pt' (some s) ims') ∧
    (∀ (etag : String) (st : Int) (pt : String → Option Int) (ims : String),
      etag ≠ "" →
      (clientHasCachedVersion etag st pt none ims = true ↔
        ∃ t, pt ims = some t ∧ st < t)) := by
  refine ⟨?_, ?_, ?_⟩
  · intro etag st pt s ims
    unfold clientHasCachedVersion
    simp only [Option.getD_some, Option.isSome_some, if_true]
    split_ifs with hc
    · rw [List.any_eq_true] at hc
      obtain ⟨x, hx, he⟩ := hc
      simp only [decide_eq_true_eq] at he
      simp only [true_iff]
      exact ⟨x, hx, he.symm⟩
    · simp only [false_iff, not_exists]
      intro e he
      exact hc (List.any_eq_true.mpr ⟨e, he.1, by simp [he.2.symm]⟩)
  · intro etag st pt pt' s ims ims'
    unfold clientHasCachedVersion
    simp only [Option.getD_some, Option.isSome_some]
    split_ifs <;> rfl
  · intro etag st pt ims hne
    unfold clientHasCachedVersion
    have hsp : splitComma "" = [""] := rfl
    have hta : ((splitComma "").any fun check =>
        decide (etag = trimSpace check)) = false := by
      rw [hsp]
      simp only [List.any_cons, List.any_nil, Bool.or_false]
      have : trimSpace "" = "" := rfl
      rw [this]
      exact decide_eq_false hne
    simp only [Option.getD_none, Option.isSome_none, hta, Bool.false_eq_true,
      if_false]
    cases hpt : pt ims with
    | none => simp
    | some t => simp [hpt]

/-- Witness for C4: with no `If-None-Match` and a date parser returning a
time after the start time, the client is treated as having a cached
version. -/
theorem conditional_request_witness :
    clientHasCachedVersion "\x22t\x22" 0 (fun _ => some 5) none "d" = true :=
  (conditional_request.2.2 "\x22t\x22" 0 (fun _ => some 5) "d"
    (by decide)).mpr ⟨5, rfl, by decide⟩

/-- The claim's list of rejection conditions for a `Range` header against a
variant of length `L`: the header does not begin with `bytes=`, has no `-`
separator, either bound fails to parse as an unsigned 64-bit decimal,
`from > to`, `from ≥ L`, or `to ≥ L`. -/
def rangeRejectSpec (L : Nat) (r : String) : Prop :=
  stripBytesPrefix r.data = none ∨
  ∃ rest, stripBytesPrefix r.data = some rest ∧
    (splitOnFirstDash rest = none ∨
      ∃ sfrom sto, splitOnFirstDash rest = some (sfrom, sto) ∧
        (parseU64 sfrom = none ∨ parseU64 sto = none ∨
          ∃ lo hi, parseU64 sfrom = some lo ∧ parseU64 sto = some hi ∧
            (lo > hi ∨ lo ≥ L ∨ hi ≥ L)))


theorem getFileRange_eq1 (data : FileData) (r : String)
    (h1 : stripBytesPrefix r.data = none) :
    getFileRange data r = (0, data.length, false) := by
  simp only [getFileRange, h1]

theorem getFileRange_eq2 (data : FileData) (r : String) (rest : List Char)
    (h1 : stripBytesPrefix r.data = some rest)
    (h2 : splitOnFirstDash rest = none) :
    getFileRange data r = (0, data.length, false) := by
  simp only [getFileRange, h1, h2]

theorem getFileRange_eq3 (data : FileData) (r : String)
    (rest sfrom sto : List Char)
    (h1 : stripBytesPrefix r.data = some rest)
    (h2 : splitOnFirstDash rest = some (sfrom, sto))
    (h3 : parseU64 sfrom = none) :
    getFileRange data r = (0, data.length, false) := by
  simp only [getFileRange, h1, h2, h3]

theorem getFileRange_eq4 (data : FileData) (r : String)
    (rest sfrom sto : List Char) (lo : Nat)
    (h1 : stripBytesPrefix r.data = some rest)
    (h2 : splitOnFirstDash rest = some (sfrom, sto))
    (h3 : parseU64 sfrom = some lo) (h4 : parseU64 sto = none) :
    getFileRange data r = (0, data.length, false) := by
  simp only [getFileRange, h1, h2, h3, h4]

theorem getFileRange_eq5 (data : FileData) (r : String)
    (rest sfrom sto : List Char) (lo hi : Nat)
    (h1 : stripBytesPrefix r.data = some rest)
    (h2 : splitOnFirstDash rest = some (sfrom, sto))
    (h3 : parseU64 sfrom = some lo) (h4 : parseU64 sto = some hi) :
    getFileRange data r =
      if lo > hi ∨ lo ≥ data.length ∨ hi ≥ data.length then
        (0, data.length, false)
      else (lo, hi - lo + 1, true) := by
  simp only [getFileRange, h1, h2, h3, h4]

theorem getFileRange_reject_eq (data : FileData) (r : String)
    (h : (getFileRange data r).2.2 = false) :
    getFileRange data r = (0, data.length, false) := by
  cases hsp : stripBytesPrefix r.data with
  | none => exact getFileRange_eq1 data r hsp
  | some rest =>
    cases hsd : splitOnFirstDash rest with
    | none => exact getFileRange_eq2 data r rest hsp hsd
    | some pr =>
      obtain ⟨sfrom, sto⟩ := pr
      cases hpf : parseU64 sfrom with
      | none => exact getFileRange_eq3 data r rest sfrom sto hsp hsd hpf
      | some lo =>
        cases hpt : parseU64 sto with
        | none => exact getFileRange_eq4 data r rest sfrom sto lo hsp hsd hpf hpt
        | some hi =>
          rw [getFileRange_eq5 data r rest sfrom sto lo hi hsp hsd hpf hpt]
          rw [getFileRange_eq5 data r rest sfrom sto lo hi hsp hsd hpf hpt] at h
          split_ifs with hcond
          · rfl
          · rw [if_neg hcond] at h
            cases h

/-- Claim C3: range parsing rejects (returning offset 0, the full variant
length, and no partial flag) exactly under the claim's conditions — header
not beginning with `bytes=`, no `-` separator, a bound failing to parse as
an unsigned 64-bit decimal, `from > to`, `from ≥ L` or `to ≥ L` — and
otherwise accepts with `offset = from` and `length = to - from + 1`; at the
response level a partial range yields status 206 with
`Content-Range: bytes FROM-TO/L`, and a rejected range yields status 200
with no `Content-Range` and the full variant length. -/
theorem range_parsing :
    (∀ (data : FileData) (r : String),
      (getFileRange data r = (0, data.length, false) ↔
        rangeRejectSpec data.length r) ∧
      (∀ rest sfrom sto lo hi,
        stripBytesPrefix r.data = some rest →
        splitOnFirstDash rest = some (sfrom, sto) →
        parseU64 sfrom = some lo → parseU64 sto = some hi →
        lo ≤ hi → hi < data.length →
        getFileRange data r = (lo, hi - lo + 1, true))) ∧
    (∀ (info : File) (st : Int) (pt : String → Option Int) (req : Request)
        (resp : Response) (data : FileData),
      serveExisting info st pt req = some resp → resp.status ≠ 304 →
      (selectEncoding info req.acceptEncoding).1 = some data →
      ((getFileRange data req.rangeHeader).2.2 = true →
        resp.status = 206 ∧
        resp.contentRange = some (formatContentRange
          (getFileRange data req.rangeHeader).1
          ((getFileRange data req.rangeHeader).1 +
            (getFileRange data req.rangeHeader).2.1 - 1) data.length) ∧
        resp.contentLength = some (getFileRange data req.rangeHeader).2.1) ∧
      ((getFileRange data req.rangeHeader).2.2 = false →
        resp.status = 200 ∧ resp.contentRange = none ∧
        resp.contentLength = some data.length)) := by
  constructor
  · intro data r
    constructor
    · cases hsp : stripBytesPrefix r.data with
      | none =>
        rw [getFileRange_eq1 data r hsp]
        simp [rangeRejectSpec, hsp]
      | some rest =>
        cases hsd : splitOnFirstDash rest with
        | none =>
          rw [getFileRange_eq2 data r rest hsp hsd]
          simp [rangeRejectSpec, hsp, hsd]
        | some pr =>
          obtain ⟨sfrom, sto⟩ := pr
          cases hpf : parseU64 sfrom with
          | none =>
            rw [getFileRange_eq3 data r rest sfrom sto hsp hsd hpf]
            simp [rangeRejectSpec, hsp, hsd, hpf]
            exact ⟨sfrom, sto, ⟨rfl, rfl⟩, Or.inl hpf⟩
          | some lo =>
            cases hpt : parseU64 sto with
            | none =>
              rw [getFileRange_eq4 data r rest sfrom sto lo hsp hsd hpf hpt]
              simp [rangeRejectSpec, hsp, hsd, hpf, hpt]
              exact ⟨sfrom, sto, ⟨rfl, rfl⟩, Or.inr (Or.inl hpt)⟩
            | some hi =>
              rw [getFileRange_eq5 data r rest sfrom sto lo hi hsp hsd hpf hpt]
              split_ifs with hcond
              · simp only [true_iff]
                exact Or.inr ⟨rest, hsp, Or.inr ⟨sfrom, sto, hsd,
                  Or.inr (Or.inr ⟨lo, hi, hpf, hpt, hcond⟩)⟩⟩
              · constructor
                · intro hEq
                  have := congrArg (fun t => t.2.2) hEq
                  simp at this
                · intro hspec
                  exfalso
                  rcases hspec with hbad | ⟨rest', hr', hrest⟩
                  · rw [hsp] at hbad; cases hbad
                  · rw [hsp] at hr'
                    obtain rfl : rest = rest' := Option.some.inj hr'
                    rcases hrest with hbad | ⟨sf', st', hsd', hrest2⟩
                    · rw [hsd] at hbad; cases hbad
                    · rw [hsd] at hsd'
                      obtain ⟨rfl, rfl⟩ : sfrom = sf' ∧ sto = st' := by
                        have := Option.some.inj hsd'
                        exact ⟨congrArg Prod.fst this, congrArg Prod.snd this⟩
                      rcases hrest2 with hbad | hbad | ⟨lo', hi', hl, hh, hb⟩
                      · rw [hpf] at hbad; cases hbad
                      · rw [hpt] at hbad; cases hbad
                      · rw [hpf] at hl
                        rw [hpt] at hh
                        obtain rfl : lo = lo' := Option.some.inj hl
                        obtain rfl : hi = hi' := Option.some.inj hh
                        exact hcond hb
    · intro rest sfrom sto lo hi hsp hsd hpf hpt hle hlt
      rw [getFileRange_eq5 data r rest sfrom sto lo hi hsp hsd hpf hpt]
      rw [if_neg (by omega)]
  · intro info st pt req resp data h hs hsel
    simp only [serveExisting] at h
    split_ifs at h with hc
    · cases h
      exact absurd rfl hs
    all_goals
      simp only [hsel] at h
      cases h
      constructor
      · intro hp
        refine ⟨by simp [hp], by simp [hp], rfl⟩
      · intro hp
        rw [getFileRange_reject_eq data req.rangeHeader hp]
        refine ⟨by simp [hp], by simp [hp], rfl⟩

/-- Witness for C3: `Range: bytes=1-3` against a 100-byte variant is
accepted as offset 1, length 3; an absent `Range` header is rejected into
the full variant. -/
theorem range_parsing_witness :
    getFileRange ⟨4096, 100⟩ "bytes=1-3" = (1, 3, true) ∧
      getFileRange ⟨4096, 100⟩ "" = (0, 100, false) := by
  have t := range_parsing
  constructor
  · exact (t.1 ⟨4096, 100⟩ "bytes=1-3").2 ['1', '-', '3'] ['1'] ['3'] 1 3
      rfl rfl rfl rfl (by decide) (by decide)
  · exact ((t.1 ⟨4096, 100⟩ "").1).mpr (Or.inl rfl)

/-- Claim C10: the (offset, length) pair produced by range parsing always
satisfies `offset + length ≤ data.length`, and on rejection is exactly
`(0, data.length)`; consequently the transmitted body slice of any response
— which the fallback writes as
`mapped[data.offset + offset .. data.offset + offset + length]` — stays
within any memory mapping that contains the selected variant's pack range
(as the loader's bounds check establishes in the absence of `uint64`
overflow, cf. C5). -/
theorem range_within_mapping :
    (∀ (data : FileData) (r : String),
      (getFileRange data r).1 + (getFileRange data r).2.1 ≤ data.length ∧
      ((getFileRange data r).2.2 = false →
        getFileRange data r = (0, data.length, false))) ∧
    (∀ (info : File) (st : Int) (pt : String → Option Int) (req : Request)
        (resp : Response) (off len mapSize : Nat),
      serveExisting info st pt req = some resp →
      resp.body = some (off, len) →
      (∀ d, (selectEncoding info req.acceptEncoding).1 = some d →
        d.offset + d.length ≤ mapSize) →
      off + len ≤ mapSize) := by
  have hpart1 : ∀ (data : FileData) (r : String),
      (getFileRange data r).1 + (getFileRange data r).2.1 ≤ data.length := by
    intro data r
    cases hsp : stripBytesPrefix r.data with
    | none => rw [getFileRange_eq1 data r hsp]; simp
    | some rest =>
      cases hsd : splitOnFirstDash rest with
      | none => rw [getFileRange_eq2 data r rest hsp hsd]; simp
      | some pr =>
        obtain ⟨sfrom, sto⟩ := pr
        cases hpf : parseU64 sfrom with
        | none => rw [getFileRange_eq3 data r rest sfrom sto hsp hsd hpf]; simp
        | some lo =>
          cases hpt : parseU64 sto with
          | none =>
            rw [getFileRange_eq4 data r rest sfrom sto lo hsp hsd hpf hpt]
            simp
          | some hi =>
            rw [getFileRange_eq5 data r rest sfrom sto lo hi hsp hsd hpf hpt]
            split_ifs with hcond
            · simp
            · simp only []
              omega
  constructor
  · intro data r
    exact ⟨hpart1 data r, getFileRange_reject_eq data r⟩
  · intro info st pt req resp off len mapSize h hb hbound
    simp only [serveExisting] at h
    split_ifs at h with hc hm
    · cases h
      cases hb
    · revert h
      cases hsel : (selectEncoding info req.acceptEncoding).1 with
      | none => intro h; cases h
      | some data =>
        intro h
        cases h
        cases hb
    · revert h
      cases hsel : (selectEncoding info req.acceptEncoding).1 with
      | none => intro h; cases h
      | some data =>
        intro h
        cases h
        simp only [Option.some.injEq, Prod.mk.injEq] at hb
        obtain ⟨rfl, rfl⟩ := hb
        have h1 := hpart1 data req.rangeHeader
        have h2 := hbound data hsel
        omega

/-- Witness for C10: a GET with no Range header against the example entry
transmits exactly the uncompressed variant's pack range, which fits in a
mapping that just contains it. -/
theorem range_within_mapping_witness :
    (getFileRange ⟨4096, 100⟩ "bytes=1-3").1 +
        (getFileRange ⟨4096, 100⟩ "bytes=1-3").2.1 ≤ 100 ∧
      (4096 : Nat) + 100 ≤ 4196 := by
  have t := range_within_mapping
  constructor
  · exact (t.1 ⟨4096, 100⟩ "bytes=1-3").1
  · exact t.2 exampleFile 0 (fun _ => none) ⟨"GET", "", none, "", ""⟩
      ⟨200, none, none, some 100, some (4096, 100)⟩ 4096 100 4196
      (by decide) rfl
      (by intro d hd; cases hd; decide)

/-! ## Builder (`cmd/htpacker/packer`, claims C2 and C8)

The builder is modelled by tracking the output-file write position.  An
input file is abstracted by its sizes and flags: `usize` is the mmapped
input length, `gzipSize` / `brotliSize` are the byte sizes the respective
encoders produce for it (the encoders themselves — zopfli and the external
brotli binary — are outside the model; the claims quantify over their
output sizes).  The etag (SHA-384) and sniffed content type are likewise
carried as abstract inputs.  All sizes come from `int64` file metadata, so
they are below `2^63`. -/

/-- One input to `Pack` (`FileToPack` plus the encoder results). -/
structure FileToPack where
  usize : Nat
  gzipSize : Nat
  brotliSize : Nat
  disableCompression : Bool
  disableGzip : Bool
  disableBrotli : Bool
  contentType : String
  etag : String

/-- Embedding of `packWriter.Pad`: advance the position to the next
4096-byte boundary (no-op when already aligned). -/
def pad (pos : Nat) : Nat :=
  if pos % 4096 = 0 then pos else pos + (4096 - pos % 4096)

/-- Embedding of `packWriter.CopyIfSaving`: the number of bytes appended
for a compressed temp file of size `c` against uncompressed size `u` — `0`
(nothing copied) unless the savings gate passes, else `c`.  The gate sums
are computed, as in Go, with `uint64` addition. -/
def copyIfSaving (c u : Nat) : Nat :=
  if u64add c 128 > u then 0
  else if u64add c (u >>> 7) > u then 0
  else c

/-- One compressed-variant block of `packOne` (the gzip and brotli blocks
are identical in shape): when the variant is enabled, pad, record the
padded position, append `CopyIfSaving`'s result, and produce a `FileData`
exactly when a non-zero length was appended. -/
def packVariant (enabled : Bool) (pos c u : Nat) : Nat × Option FileData :=
  if enabled then
    let vpos := pad pos
    let vlen := copyIfSaving c u
    (vpos + vlen, if vlen > 0 then some (⟨vpos, vlen⟩ : FileData) else none)
  else (pos, none)

/-- Embedding of `packOne` (position-tracking part): pad, record the
uncompressed variant at the padded position, append the input, then — when
compression is enabled — run the gzip block and (when the brotli tool is
available and brotli is enabled) the brotli block. -/
def packOne (brotliAvailable : Bool) (pos : Nat) (ftp : FileToPack) :
    Nat × File :=
  let pos := pad pos
  let uncompressed : FileData := ⟨pos, ftp.usize⟩
  let pos := pos + ftp.usize
  if ftp.disableCompression then
    (pos, ⟨ftp.contentType, ftp.etag, some uncompressed, none, none⟩)
  else
    let g := packVariant (!ftp.disableGzip) pos ftp.gzipSize ftp.usize
    let b := packVariant (brotliAvailable && !ftp.disableBrotli) g.1
      ftp.brotliSize ftp.usize
    (b.1, ⟨ftp.contentType, ftp.etag, some uncompressed, g.2, b.2⟩)

/-- Embedding of `Pack`: write the 36-byte placeholder header, pack each
input in sequence, pad, and record the directory offset in the final
header.  The serialized directory's length is the abstract
`dirBlobLength` (the directory codec is not modelled; C8 concerns only the
offset). -/
def pack (brotliAvailable : Bool) (inputs : List (String × FileToPack))
    (dirBlobLength : Nat) : Header × List (String × File) :=
  let pos0 := (headerMarshal ⟨Magic, VersionInitial, 1, 1⟩).length
  let st := inputs.foldl
    (fun (acc : Nat × List (String × File)) pf =>
      let r := packOne brotliAvailable acc.1 pf.2
      (r.1, (pf.1, r.2) :: acc.2))
    (pos0, [])
  let dirOffset := pad st.1
  (⟨Magic, VersionInitial, dirOffset, dirBlobLength⟩, st.2.reverse)

theorem copyIfSaving_spec (c u : Nat) (hc : c < 2 ^ 63) (hu : u < 2 ^ 63) :
    (0 < copyIfSaving c u ↔
      0 < c ∧ c + 128 ≤ u ∧ c + (u >>> 7) ≤ u) ∧
    (copyIfSaving c u = 0 ∨ copyIfSaving c u = c) := by
  have hs : u >>> 7 = u / 2 ^ 7 := Nat.shiftRight_eq_div_pow u 7
  have h1 : c + 128 < U64 := by unfold U64; omega
  have h2 : c + u >>> 7 < U64 := by
    unfold U64; rw [hs]; omega
  unfold copyIfSaving u64add
  rw [Nat.mod_eq_of_lt h1, Nat.mod_eq_of_lt h2]
  split_ifs with g1 g2
  · exact ⟨by omega, Or.inl rfl⟩
  · exact ⟨by omega, Or.inl rfl⟩
  · exact ⟨⟨fun h => ⟨h, by omega, by omega⟩, fun h => h.1⟩, Or.inr rfl⟩

theorem packVariant_fields (enabled : Bool) (pos c u : Nat) :
    ((packVariant enabled pos c u).2 ≠ none ↔
      enabled = true ∧ 0 < copyIfSaving c u) ∧
    (∀ x, (packVariant enabled pos c u).2 = some x →
      x.offset = pad pos ∧ x.length = copyIfSaving c u) := by
  unfold packVariant
  cases enabled with
  | false => simp
  | true =>
    simp only [if_true]
    split_ifs with h
    · constructor
      · simp [h]
      · intro x hx
        cases hx
        exact ⟨rfl, rfl⟩
    · constructor
      · simp
        omega
      · intro x hx
        cases hx

/-- Claim C2: for an input whose compression is not disabled, with
uncompressed size `u` and successful encoder output of `c` bytes
(`0 < c`; both sizes are `int64` file sizes, hence `< 2^63`), the gzip
(resp. brotli) variant is recorded in the `FileEntry` if and only if both
`c + 128 ≤ u` and `c + (u >> 7) ≤ u` hold; a recorded variant has exactly
length `c`, so when the gate fails nothing in the directory references the
compressed bytes. -/
theorem savings_gate (brotliAvailable : Bool) (pos : Nat) (ftp : FileToPack)
    (hdc : ftp.disableCompression = false) (hu : ftp.usize < 2 ^ 63) :
    (ftp.disableGzip = false → 0 < ftp.gzipSize → ftp.gzipSize < 2 ^ 63 →
      (((packOne brotliAvailable pos ftp).2.gzip ≠ none) ↔
        (ftp.gzipSize + 128 ≤ ftp.usize ∧
          ftp.gzipSize + (ftp.usize >>> 7) ≤ ftp.usize)) ∧
      (∀ x, (packOne brotliAvailable pos ftp).2.gzip = some x →
        x.length = ftp.gzipSize)) ∧
    (brotliAvailable = true → ftp.disableBrotli = false →
      0 < ftp.brotliSize → ftp.brotliSize < 2 ^ 63 →
      (((packOne brotliAvailable pos ftp).2.brotli ≠ none) ↔
        (ftp.brotliSize + 128 ≤ ftp.usize ∧
          ftp.brotliSize + (ftp.usize >>> 7) ≤ ftp.usize)) ∧
      (∀ x, (packOne brotliAvailable pos ftp).2.brotli = some x →
        x.length = ftp.brotliSize)) := by
  unfold packOne
  rw [if_neg (by rw [hdc]; exact Bool.false_ne_true)]
  constructor
  · intro hdg hcz hcb
    have hv := packVariant_fields (!ftp.disableGzip)
      (pad pos + ftp.usize) ftp.gzipSize ftp.usize
    have hcs := copyIfSaving_spec ftp.gzipSize ftp.usize hcb hu
    constructor
    · rw [hv.1]
      rw [hcs.1]
      simp [hdg]
      intro _ _
      exact hcz
    · intro x hx
      replace hx : (packVariant (!ftp.disableGzip) (pad pos + ftp.usize)
          ftp.gzipSize ftp.usize).2 = some x := hx
      have := (hv.2 x hx).2
      rcases hcs.2 with h0 | hc
      · rw [h0] at this
        have hne : (packVariant (!ftp.disableGzip) (pad pos + ftp.usize)
            ftp.gzipSize ftp.usize).2 ≠ none := by
          rw [hx]; exact Option.some_ne_none x
        rw [hv.1] at hne
        omega
      · rw [hc] at this
        exact this
  · intro hba hdb hcz hcb
    have hv := packVariant_fields (brotliAvailable && !ftp.disableBrotli)
      (packVariant (!ftp.disableGzip) (pad pos + ftp.usize) ftp.gzipSize
        ftp.usize).1
      ftp.brotliSize ftp.usize
    have hcs := copyIfSaving_spec ftp.brotliSize ftp.usize hcb hu
    constructor
    · rw [hv.1]
      rw [hcs.1]
      simp [hba, hdb]
      intro _ _
      exact hcz
    · intro x hx
      replace hx : (packVariant (brotliAvailable && !ftp.disableBrotli)
          (packVariant (!ftp.disableGzip) (pad pos + ftp.usize)
            ftp.gzipSize ftp.usize).1
          ftp.brotliSize ftp.usize).2 = some x := hx
      have := (hv.2 x hx).2
      rcases hcs.2 with h0 | hc
      · rw [h0] at this
        have hne : (packVariant (brotliAvailable && !ftp.disableBrotli)
            (packVariant (!ftp.disableGzip) (pad pos + ftp.usize)
              ftp.gzipSize ftp.usize).1
            ftp.brotliSize ftp.usize).2 ≠ none := by
          rw [hx]; exact Option.some_ne_none x
        rw [hv.1] at hne
        omega
      · rw [hc] at this
        exact this

/-- Witness for C2: a 20-byte gzip result against a 4096-byte input passes
the gate and is recorded with length 20; brotli behaves the same. -/
theorem savings_gate_witness :
    ((packOne true 0
        ⟨4096, 20, 30, false, false, false, "t", "e"⟩).2.gzip ≠ none) ∧
      ((packOne true 0
        ⟨4096, 20, 30, false, false, false, "t", "e"⟩).2.brotli ≠ none) := by
  have t := savings_gate true 0 ⟨4096, 20, 30, false, false, false, "t", "e"⟩
    rfl (by decide)
  constructor
  · exact ((t.1 rfl (by decide) (by decide)).1).mpr (by decide)
  · exact ((t.2 rfl rfl (by decide) (by decide)).1).mpr (by decide)

theorem pad_aligned (pos : Nat) : pad pos % 4096 = 0 := by
  unfold pad
  split_ifs with h
  · exact h
  · omega

theorem packOne_offsets (b : Bool) (pos : Nat) (ftp : FileToPack) :
    (∀ x, (packOne b pos ftp).2.uncompressed = some x →
      x.offset % 4096 = 0) ∧
    (∀ x, (packOne b pos ftp).2.gzip = some x → x.offset % 4096 = 0) ∧
    (∀ x, (packOne b pos ftp).2.brotli = some x → x.offset % 4096 = 0) := by
  unfold packOne
  split_ifs with h1
  · refine ⟨?_, ?_, ?_⟩
    · intro x hx
      replace hx : some (⟨pad pos, ftp.usize⟩ : FileData) = some x := hx
      cases hx
      exact pad_aligned pos
    · intro x hx
      exact hx.elim
    · intro x hx
      exact hx.elim
  · refine ⟨?_, ?_, ?_⟩
    · intro x hx
      replace hx : some (⟨pad pos, ftp.usize⟩ : FileData) = some x := hx
      cases hx
      exact pad_aligned pos
    · intro x hx
      replace hx : (packVariant (!ftp.disableGzip) (pad pos + ftp.usize)
          ftp.gzipSize ftp.usize).2 = some x := hx
      rw [((packVariant_fields _ _ _ _).2 x hx).1]
      exact pad_aligned _
    · intro x hx
      replace hx : (packVariant (b && !ftp.disableBrotli)
          (packVariant (!ftp.disableGzip) (pad pos + ftp.usize)
            ftp.gzipSize ftp.usize).1
          ftp.brotliSize ftp.usize).2 = some x := hx
      rw [((packVariant_fields _ _ _ _).2 x hx).1]
      exact pad_aligned _

theorem pack_fold_aligned (b : Bool) (inputs : List (String × FileToPack)) :
    ∀ (acc : Nat × List (String × File)),
    (∀ e ∈ acc.2,
      (∀ x, (e.2 : File).uncompressed = some x → x.offset % 4096 = 0) ∧
      (∀ x, e.2.gzip = some x → x.offset % 4096 = 0) ∧
      (∀ x, e.2.brotli = some x → x.offset % 4096 = 0)) →
    ∀ e ∈ (inputs.foldl
        (fun (acc : Nat × List (String × File)) pf =>
          let r := packOne b acc.1 pf.2
          (r.1, (pf.1, r.2) :: acc.2)) acc).2,
      (∀ x, (e.2 : File).uncompressed = some x → x.offset % 4096 = 0) ∧
      (∀ x, e.2.gzip = some x → x.offset % 4096 = 0) ∧
      (∀ x, e.2.brotli = some x → x.offset % 4096 = 0) := by
  induction inputs with
  | nil => intro acc hacc; exact hacc
  | cons pf rest ih =>
    intro acc hacc
    rw [List.foldl_cons]
    apply ih
    intro e he
    rcases List.mem_cons.mp he with he | he
    · subst he
      exact packOne_offsets b acc.1 pf.2
    · exact hacc e he

/-- Claim C8: in every pack produced by a successful build, the directory
offset recorded in the final header is a multiple of 4096, and the offset
of every `FileData` (uncompressed, gzip and brotli) recorded in the
directory is a multiple of 4096. -/
theorem pack_alignment (b : Bool) (inputs : List (String × FileToPack))
    (dlen : Nat) :
    (pack b inputs dlen).1.directoryOffset % 4096 = 0 ∧
    (∀ e ∈ (pack b inputs dlen).2,
      (∀ x, (e.2 : File).uncompressed = some x → x.offset % 4096 = 0) ∧
      (∀ x, e.2.gzip = some x → x.offset % 4096 = 0) ∧
      (∀ x, e.2.brotli = some x → x.offset % 4096 = 0)) := by
  constructor
  · exact pad_aligned _
  · intro e he
    replace he : e ∈ (inputs.foldl
        (fun (acc : Nat × List (String × File)) pf =>
          let r := packOne b acc.1 pf.2
          (r.1, (pf.1, r.2) :: acc.2))
        ((headerMarshal ⟨Magic, VersionInitial, 1, 1⟩).length,
          [])).2.reverse := he
    rw [List.mem_reverse] at he
    exact pack_fold_aligned b inputs _ (by intro e' he'; cases he') e he

/-- Witness for C8: a single 4096-byte input whose gzip (20 bytes) and
brotli (30 bytes) results pass the gate yields directory offset 16384 and
variant offsets 4096, 8192 and 12288, all 4096-aligned. -/
theorem pack_alignment_witness :
    (pack true [("/a", ⟨4096, 20, 30, false, false, false, "t", "e"⟩)]
        55).1.directoryOffset % 4096 = 0 ∧ (8192 : Nat) % 4096 = 0 := by
  have t := pack_alignment true
    [("/a", ⟨4096, 20, 30, false, false, false, "t", "e"⟩)] 55
  refine ⟨t.1, ?_⟩
  exact (t.2 ("/a", ⟨"t", "e", some ⟨4096, 4096⟩, some ⟨8192, 20⟩,
      some ⟨12288, 30⟩⟩) (by decide)).2.1 ⟨8192, 20⟩ (by decide)

/-! ## Index-file routes (`Handler.SetIndex`, claim C9)

`SetIndex` ranges over the handler's directory map; for every visited entry
whose `filepath.Base` equals the configured index filename it registers
`filepath.Dir` of the path as an alias to the same `*packed.File`, unless
that route already exists.  The map is modelled as an association list with
first-match lookup; Go's `range` over a map visits every key present
before the loop starts exactly once (in unspecified order) and may or may
not visit keys inserted during the loop, so the model takes the realized
visit sequence as a parameter, constrained in the theorem only to contain
every original key. -/

/-- Embedding of Go `filepath.Base` (Linux): strip trailing slashes, then
take the part after the last slash; `"."` for the empty path, `"/"` for
all-slash paths. -/
def base (p : List Char) : List Char :=
  if p = [] then ['.']
  else
    let q := (p.reverse.dropWhile (fun c => c = '/')).reverse
    if q = [] then ['/']
    else (q.reverse.takeWhile (fun c => c ≠ '/')).reverse

/-- Embedding of Go `filepath.Dir` (Linux): everything up to and including
the final slash, then `Clean`ed (`"."` when there is no slash). -/
def dirOf (p : List Char) : List Char :=
  clean ((p.reverse.dropWhile (fun c => c ≠ '/')).reverse)

/-- First-match lookup in the association-list model of `h.dir`. -/
def lookupDir : List (List Char × File) → List Char → Option File
  | [], _ => none
  | (k, v) :: rest, q => if k = q then some v else lookupDir rest q

/-- One iteration of the `SetIndex` loop, visiting key `k`: when `k` is
bound and its basename is `filename`, bind `dirOf k` to the same file
unless that route already exists. -/
def setIndexStep (filename : List Char) (dir : List (List Char × File))
    (k : List Char) : List (List Char × File) :=
  match lookupDir dir k with
  | none => dir
  | some v =>
    if base k = filename then
      if lookupDir dir (dirOf k) = none then dir ++ [(dirOf k, v)]
      else dir
    else dir

/-- Embedding of `Handler.SetIndex` over the realized visit sequence. -/
def setIndex (filename : List Char) (dir : List (List Char × File))
    (visits : List (List Char)) : List (List Char × File) :=
  visits.foldl (setIndexStep filename) dir

/-- A usable path segment: what can stand between slashes in a canonical
absolute path. -/
def goodSeg (s : List Char) : Prop :=
  s ≠ [] ∧ s ≠ ['.'] ∧ s ≠ ['.', '.'] ∧ '/' ∉ s

instance (s : List Char) : Decidable (goodSeg s) := by
  unfold goodSeg
  infer_instance

/-- The canonical absolute path with the given segments. -/
def pathOf (segs : List (List Char)) : List Char :=
  '/' :: interSlash segs

theorem splitOnChar_ne_nil (sep : Char) (l : List Char) :
    splitOnChar sep l ≠ [] := by
  cases l with
  | nil => simp [splitOnChar]
  | cons c rest =>
    rw [splitOnChar]
    split_ifs
    · simp
    · cases splitOnChar sep rest <;> simp

theorem splitOnChar_sep_not_mem (sep : Char) (l : List Char) :
    ∀ s ∈ splitOnChar sep l, sep ∉ s := by
  induction l with
  | nil =>
    intro s hs
    simp [splitOnChar] at hs
    subst hs
    simp
  | cons c rest ih =>
    intro s hs
    rw [splitOnChar] at hs
    split_ifs at hs with hc
    · rcases List.mem_cons.mp hs with rfl | hs
      · simp
      · exact ih s hs
    · cases hsp : splitOnChar sep rest with
      | nil => exact absurd hsp (splitOnChar_ne_nil sep rest)
      | cons t ts =>
        rw [hsp] at hs
        rcases List.mem_cons.mp hs with rfl | hs
        · intro hmem
          rcases List.mem_cons.mp hmem with rfl | hmem
          · exact hc rfl
          · exact ih t (by rw [hsp]; exact List.mem_cons_self _ _) hmem
        · exact ih s (by rw [hsp]; exact List.mem_cons_of_mem _ hs)

theorem splitOnChar_no_sep (sep : Char) (l : List Char) (h : sep ∉ l) :
    splitOnChar sep l = [l] := by
  induction l with
  | nil => rfl
  | cons c rest ih =>
    rw [splitOnChar]
    rw [if_neg (by intro hc; exact h (hc ▸ List.mem_cons_self _ _))]
    rw [ih (fun hm => h (List.mem_cons_of_mem _ hm))]

theorem splitOnChar_append_sep (sep : Char) (s t : List Char)
    (h : sep ∉ s) :
    splitOnChar sep (s ++ sep :: t) = s :: splitOnChar sep t := by
  induction s with
  | nil =>
    rw [List.nil_append, splitOnChar]
    simp
  | cons c cs ih =>
    rw [List.cons_append, splitOnChar]
    rw [if_neg (by intro hc; exact h (hc ▸ List.mem_cons_self _ _))]
    rw [ih (fun hm => h (List.mem_cons_of_mem _ hm))]

theorem interSlash_cons_cons (a b : List Char) (rest : List (List Char)) :
    interSlash (a :: b :: rest) = a ++ '/' :: interSlash (b :: rest) := rfl

theorem interSlash_append_last (segs : List (List Char)) (s : List Char) :
    interSlash (segs ++ [s]) =
      match segs with
      | [] => s
      | _ :: _ => interSlash segs ++ '/' :: s := by
  induction segs with
  | nil => rfl
  | cons a rest ih =>
    cases rest with
    | nil => rfl
    | cons b r =>
      show interSlash (a :: ((b :: r) ++ [s])) = _
      rw [show (b :: r) ++ [s] = b :: (r ++ [s]) from rfl]
      rw [interSlash_cons_cons]
      rw [show b :: (r ++ [s]) = (b :: r) ++ [s] from rfl]
      rw [ih]
      cases r with
      | nil => simp [interSlash_cons_cons, interSlash]
      | cons x xs => simp [interSlash_cons_cons]

theorem splitSlash_interSlash (segs : List (List Char))
    (h : ∀ s ∈ segs, '/' ∉ s) (hne : segs ≠ []) :
    splitSlash (interSlash segs) = segs := by
  induction segs with
  | nil => exact absurd rfl hne
  | cons a rest ih =>
    cases rest with
    | nil =>
      show splitSlash a = [a]
      exact splitOnChar_no_sep '/' a (h a (List.mem_cons_self _ _))
    | cons b r =>
      rw [interSlash_cons_cons]
      show splitOnChar '/' (a ++ '/' :: interSlash (b :: r)) = _
      rw [splitOnChar_append_sep '/' a _ (h a (List.mem_cons_self _ _))]
      rw [show splitOnChar '/' (interSlash (b :: r)) =
        splitSlash (interSlash (b :: r)) from rfl]
      rw [ih (fun s hs => h s (List.mem_cons_of_mem _ hs)) (by simp)]

theorem splitSlash_interSlash_sep (segs : List (List Char)) (u : List Char)
    (h : ∀ s ∈ segs, '/' ∉ s) (hne : segs ≠ []) :
    splitSlash (interSlash segs ++ '/' :: u) = segs ++ splitSlash u := by
  induction segs with
  | nil => exact absurd rfl hne
  | cons a rest ih =>
    cases rest with
    | nil =>
      show splitOnChar '/' (a ++ '/' :: u) = _
      rw [splitOnChar_append_sep '/' a u (h a (List.mem_cons_self _ _))]
      rfl
    | cons b r =>
      rw [interSlash_cons_cons, List.append_assoc]
      show splitOnChar '/' (a ++ '/' :: (interSlash (b :: r) ++ '/' :: u)) = _
      rw [splitOnChar_append_sep '/' a _ (h a (List.mem_cons_self _ _))]
      rw [show splitOnChar '/' (interSlash (b :: r) ++ '/' :: u) =
        splitSlash (interSlash (b :: r) ++ '/' :: u) from rfl]
      rw [ih (fun s hs => h s (List.mem_cons_of_mem _ hs)) (by simp)]
      rfl

theorem cleanGo_append (rooted : Bool) (xs ys : List (List Char)) :
    ∀ stack, cleanGo rooted stack (xs ++ ys) =
      cleanGo rooted (cleanGo rooted stack xs) ys := by
  induction xs with
  | nil => intro stack; rfl
  | cons seg xs' ih =>
    intro stack
    rw [List.cons_append]
    rw [cleanGo]
    conv_rhs => rw [cleanGo]
    split_ifs with h1 h2
    · exact ih stack
    · exact ih _
    · exact ih _

theorem cleanGo_push_all (segs : List (List Char))
    (h : ∀ s ∈ segs, goodSeg s) :
    ∀ stack, cleanGo true stack segs = segs.reverse ++ stack := by
  induction segs with
  | nil => intro stack; rfl
  | cons s segs' ih =>
    intro stack
    have hs := h s (List.mem_cons_self _ _)
    rw [cleanGo]
    rw [if_neg (by rintro (h1 | h1) <;> [exact hs.1 h1; exact hs.2.1 h1])]
    rw [if_neg hs.2.2.1]
    rw [ih (fun x hx => h x (List.mem_cons_of_mem _ hx)) (s :: stack)]
    simp

theorem cleanGo_true_good (segs : List (List Char)) :
    ∀ stack, (∀ s ∈ segs, '/' ∉ s) → (∀ s ∈ stack, goodSeg s) →
    ∀ s ∈ cleanGo true stack segs, goodSeg s := by
  induction segs with
  | nil => intro stack _ hstack s hs; exact hstack s hs
  | cons seg segs' ih =>
    intro stack hsegs hstack
    have hsegs' : ∀ s ∈ segs', '/' ∉ s :=
      fun s hs => hsegs s (List.mem_cons_of_mem _ hs)
    rw [cleanGo]
    split_ifs with h1 h2
    · exact ih stack hsegs' hstack
    · refine ih (dotdotStep true stack) hsegs' ?_
      intro s hs
      cases stack with
      | nil =>
        simp only [dotdotStep, if_pos rfl] at hs
        cases hs
      | cons top rest =>
        simp only [dotdotStep] at hs
        rw [if_neg (hstack top (List.mem_cons_self _ _)).2.2.1] at hs
        exact hstack s (List.mem_cons_of_mem _ hs)
    · refine ih (seg :: stack) hsegs' ?_
      intro s hs
      rcases List.mem_cons.mp hs with rfl | hs
      · push_neg at h1
        exact ⟨h1.1, h1.2, h2, hsegs s (List.mem_cons_self _ _)⟩
      · exact hstack s hs

theorem clean_rooted_eq (p : List Char) (h : isAbs p = true) (hp : p ≠ []) :
    clean p = pathOf (cleanGo true [] (splitSlash p)).reverse := by
  rw [clean, if_neg hp, h]
  simp only [if_true]
  rw [if_neg (by simp)]
  rfl

theorem clean_rooted (p : List Char) (h : isAbs p = true) :
    ∃ segs, (∀ s ∈ segs, goodSeg s) ∧ clean p = pathOf segs := by
  have hp : p ≠ [] := by
    cases p with
    | nil => cases h
    | cons c r => simp
  refine ⟨(cleanGo true [] (splitSlash p)).reverse, ?_, clean_rooted_eq p h hp⟩
  intro s hs
  exact cleanGo_true_good (splitSlash p) [] (splitOnChar_sep_not_mem '/' p)
    (by intro x hx; cases hx) s (List.mem_reverse.mp hs)

theorem splitSlash_pathOf (segs : List (List Char))
    (h : ∀ s ∈ segs, '/' ∉ s) (hne : segs ≠ []) :
    splitSlash (pathOf segs) = [] :: segs := by
  show splitOnChar '/' ('/' :: interSlash segs) = _
  rw [splitOnChar, if_pos rfl]
  rw [show splitOnChar '/' (interSlash segs) =
    splitSlash (interSlash segs) from rfl]
  rw [splitSlash_interSlash segs h hne]

theorem clean_pathOf (segs : List (List Char))
    (h : ∀ s ∈ segs, goodSeg s) : clean (pathOf segs) = pathOf segs := by
  cases segs with
  | nil => decide
  | cons a rest =>
    rw [clean_rooted_eq (pathOf (a :: rest)) rfl (by simp [pathOf])]
    rw [splitSlash_pathOf (a :: rest) (fun s hs => (h s hs).2.2.2) (by simp)]
    rw [show cleanGo true [] ([] :: a :: rest) =
      cleanGo true [] (a :: rest) by rw [cleanGo]; rw [if_pos (Or.inl rfl)]]
    rw [cleanGo_push_all (a :: rest) h []]
    simp

theorem clean_pathOf_slash (segs : List (List Char))
    (h : ∀ s ∈ segs, goodSeg s) :
    clean (pathOf segs ++ ['/']) = pathOf segs := by
  cases segs with
  | nil => decide
  | cons a rest =>
    have habs : isAbs (pathOf (a :: rest) ++ ['/']) = true := rfl
    rw [clean_rooted_eq _ habs (by simp [pathOf])]
    have hsp : splitSlash (pathOf (a :: rest) ++ ['/']) =
        [] :: ((a :: rest) ++ [[]]) := by
      show splitOnChar '/' ('/' :: (interSlash (a :: rest) ++ ['/'])) = _
      rw [splitOnChar, if_pos rfl]
      rw [show ((['/'] : List Char) : List Char) = '/' :: ([] : List Char)
        from rfl]
      rw [show splitOnChar '/' (interSlash (a :: rest) ++ '/' :: []) =
        splitSlash (interSlash (a :: rest) ++ '/' :: []) from rfl]
      rw [splitSlash_interSlash_sep (a :: rest) []
        (fun s hs => (h s hs).2.2.2) (by simp)]
      rfl
    rw [hsp]
    rw [show cleanGo true [] ([] :: ((a :: rest) ++ [[]])) =
      cleanGo true [] ((a :: rest) ++ [[]]) by
        rw [cleanGo]; rw [if_pos (Or.inl rfl)]]
    rw [cleanGo_append true (a :: rest) [[]]]
    rw [cleanGo_push_all (a :: rest) h []]
    rw [show cleanGo true ((a :: rest).reverse ++ []) [[]] =
      (a :: rest).reverse ++ [] by
        rw [cleanGo]; rw [if_pos (Or.inl rfl)]; rfl]
    simp

theorem takeWhile_append_of (P : Char → Bool) (xs : List Char) (y : Char)
    (ys : List Char) (h : ∀ c ∈ xs, P c = true) (hy : P y = false) :
    (xs ++ y :: ys).takeWhile P = xs := by
  induction xs with
  | nil => simp [List.takeWhile_cons, hy]
  | cons c cs ih =>
    rw [List.cons_append, List.takeWhile_cons, h c (List.mem_cons_self _ _)]
    rw [ih (fun x hx => h x (List.mem_cons_of_mem _ hx))]
    simp

theorem dropWhile_append_of (P : Char → Bool) (xs : List Char) (y : Char)
    (ys : List Char) (h : ∀ c ∈ xs, P c = true) (hy : P y = false) :
    (xs ++ y :: ys).dropWhile P = y :: ys := by
  induction xs with
  | nil => simp [List.dropWhile_cons, hy]
  | cons c cs ih =>
    rw [List.cons_append, List.dropWhile_cons, h c (List.mem_cons_self _ _)]
    exact ih (fun x hx => h x (List.mem_cons_of_mem _ hx))

theorem base_of_shape (p s t : List Char)
    (hrev : p.reverse = s.reverse ++ '/' :: t) (hs : s ≠ [])
    (hsl : '/' ∉ s) : base p = s := by
  have hp : p ≠ [] := by
    intro hn
    rw [hn] at hrev
    exact absurd hrev.symm (by simp)
  obtain ⟨a, s', hsrev⟩ : ∃ a s', s.reverse = a :: s' := by
    cases hsv : s.reverse with
    | nil =>
      exfalso
      apply hs
      have := congrArg List.reverse hsv
      simpa using this
    | cons a s' => exact ⟨a, s', rfl⟩
  have ha : a ∈ s := by
    rw [← List.mem_reverse, hsrev]
    exact List.mem_cons_self _ _
  have ha' : ¬ (a = '/') := fun hh => hsl (hh ▸ ha)
  unfold base
  rw [if_neg hp, hrev, hsrev, List.cons_append, List.dropWhile_cons]
  rw [decide_eq_false ha']
  simp only [Bool.false_eq_true, if_false]
  rw [if_neg (by simp)]
  rw [List.reverse_reverse]
  rw [show a :: (s' ++ '/' :: t) = (a :: s') ++ '/' :: t from rfl]
  rw [takeWhile_append_of _ (a :: s') '/' t ?hall ?hy]
  · rw [← hsrev, List.reverse_reverse]
  case hall =>
    intro c hc
    have hcs : c ∈ s := by
      rw [← List.mem_reverse, hsrev]
      exact hc
    exact decide_eq_true (fun hh => hsl (hh ▸ hcs))
  case hy => decide

theorem dirOf_of_shape (p s t : List Char)
    (hrev : p.reverse = s.reverse ++ '/' :: t) (hsl : '/' ∉ s) :
    dirOf p = clean (('/' :: t).reverse) := by
  unfold dirOf
  rw [hrev]
  rw [dropWhile_append_of _ s.reverse '/' t ?hall ?hy]
  case hall =>
    intro c hc
    have hcs : c ∈ s := List.mem_reverse.mp hc
    exact decide_eq_true (fun hh => hsl (hh ▸ hcs))
  case hy => decide

theorem pathOf_last_rev (segs : List (List Char)) (s : List Char) :
    ∃ t, (pathOf (segs ++ [s])).reverse = s.reverse ++ '/' :: t := by
  cases segs with
  | nil =>
    refine ⟨[], ?_⟩
    simp [pathOf, interSlash]
  | cons a rest =>
    refine ⟨(interSlash (a :: rest)).reverse ++ ['/'], ?_⟩
    rw [pathOf, interSlash_append_last]
    simp

theorem base_pathOf_last (segs : List (List Char)) (s : List Char)
    (hs : goodSeg s) : base (pathOf (segs ++ [s])) = s := by
  obtain ⟨t, ht⟩ := pathOf_last_rev segs s
  exact base_of_shape _ s t ht hs.1 hs.2.2.2

theorem dirOf_pathOf_last (segs : List (List Char)) (s : List Char)
    (hsegs : ∀ x ∈ segs, goodSeg x) (hs : goodSeg s) :
    dirOf (pathOf (segs ++ [s])) = pathOf segs := by
  cases segs with
  | nil =>
    have ht : (pathOf ([] ++ [s])).reverse = s.reverse ++ '/' :: [] := by
      simp [pathOf, interSlash]
    rw [dirOf_of_shape _ s [] ht hs.2.2.2]
    decide
  | cons a rest =>
    have ht : (pathOf ((a :: rest) ++ [s])).reverse =
        s.reverse ++ '/' :: ((interSlash (a :: rest)).reverse ++ ['/']) := by
      rw [pathOf, interSlash_append_last]
      simp
    rw [dirOf_of_shape _ s _ ht hs.2.2.2]
    rw [show ('/' :: ((interSlash (a :: rest)).reverse ++ ['/'])).reverse =
      pathOf (a :: rest) ++ ['/'] by simp [pathOf]]
    exact clean_pathOf_slash (a :: rest) hsegs

theorem base_root : base (pathOf []) = ['/'] := by decide

theorem dirOf_root : dirOf (pathOf []) = pathOf [] := by decide

theorem interSlash_ne_nil (a : List Char) (r : List (List Char))
    (ha : a ≠ []) : interSlash (a :: r) ≠ [] := by
  cases r with
  | nil => exact ha
  | cons b r' =>
    rw [interSlash_cons_cons]
    simp [ha]

theorem pathOf_inj (segs segs' : List (List Char))
    (h : ∀ s ∈ segs, goodSeg s) (h' : ∀ s ∈ segs', goodSeg s)
    (heq : pathOf segs = pathOf segs') : segs = segs' := by
  have hi : interSlash segs = interSlash segs' := by
    have := congrArg List.tail heq
    simpa [pathOf] using this
  cases segs with
  | nil =>
    cases segs' with
    | nil => rfl
    | cons a r =>
      exfalso
      exact interSlash_ne_nil a r (h' a (List.mem_cons_self _ _)).1
        (by rw [← hi]; rfl)
  | cons a r =>
    cases segs' with
    | nil =>
      exfalso
      exact interSlash_ne_nil a r (h a (List.mem_cons_self _ _)).1
        (by rw [hi]; rfl)
    | cons b r' =>
      have h1 := splitSlash_interSlash (a :: r)
        (fun s hs => (h s hs).2.2.2) (by simp)
      have h2 := splitSlash_interSlash (b :: r')
        (fun s hs => (h' s hs).2.2.2) (by simp)
      rw [← h1, ← h2, hi]

/-- A canonical absolute path (what the loader admits) is exactly a `/`
followed by good segments. -/
theorem canonical_iff_pathOf (k : List Char) :
    (isAbs k = true ∧ clean k = k) ↔
      ∃ segs, (∀ s ∈ segs, goodSeg s) ∧ k = pathOf segs := by
  constructor
  · rintro ⟨habs, hcl⟩
    obtain ⟨segs, hg, he⟩ := clean_rooted k habs
    exact ⟨segs, hg, by rw [← hcl, he]⟩
  · rintro ⟨segs, hg, rfl⟩
    exact ⟨rfl, clean_pathOf segs hg⟩

/-- Two canonical absolute paths with the same basename and the same parent
are equal (used to show `SetIndex` aliases never collide). -/
theorem canonical_key_unique (k k' : List Char)
    (hk : isAbs k = true ∧ clean k = k) (hk' : isAbs k' = true ∧ clean k' = k')
    (hb : base k = base k') (hd : dirOf k = dirOf k') : k = k' := by
  obtain ⟨segs, hg, rfl⟩ := (canonical_iff_pathOf k).mp hk
  obtain ⟨segs', hg', rfl⟩ := (canonical_iff_pathOf k').mp hk'
  rcases List.eq_nil_or_concat segs with rfl | ⟨init, s, rfl⟩ <;>
    rcases List.eq_nil_or_concat segs' with rfl | ⟨init', s', rfl⟩ <;>
    simp only [List.concat_eq_append] at *
  · exfalso
    have hs' : goodSeg s' := hg' s' (by simp)
    rw [base_root, base_pathOf_last init' s' hs'] at hb
    exact hs'.2.2.2 (hb ▸ List.mem_cons_self '/' [])
  · exfalso
    have hs : goodSeg s := hg s (by simp)
    rw [base_pathOf_last init s hs, base_root] at hb
    exact hs.2.2.2 (hb.symm ▸ List.mem_cons_self '/' [])
  · have hs : goodSeg s := hg s (by simp)
    have hs' : goodSeg s' := hg' s' (by simp)
    have hinit : ∀ x ∈ init, goodSeg x := fun x hx => hg x (by simp [hx])
    have hinit' : ∀ x ∈ init', goodSeg x := fun x hx => hg' x (by simp [hx])
    rw [base_pathOf_last init s hs, base_pathOf_last init' s' hs'] at hb
    rw [dirOf_pathOf_last init s hinit hs,
      dirOf_pathOf_last init' s' hinit' hs'] at hd
    rw [pathOf_inj init init' hinit hinit' hd, hb]

/-- The parent of a canonical absolute path is canonical and absolute. -/
theorem canonical_dirOf (k : List Char)
    (hk : isAbs k = true ∧ clean k = k) :
    isAbs (dirOf k) = true ∧ clean (dirOf k) = dirOf k := by
  obtain ⟨segs, hg, rfl⟩ := (canonical_iff_pathOf k).mp hk
  rcases List.eq_nil_or_concat segs with rfl | ⟨init, s, rfl⟩
  · rw [dirOf_root]
    exact ⟨rfl, by decide⟩
  · simp only [List.concat_eq_append] at *
    have hinit : ∀ x ∈ init, goodSeg x := fun x hx => hg x (by simp [hx])
    rw [dirOf_pathOf_last init s hinit (hg s (by simp))]
    exact ⟨rfl, clean_pathOf init hinit⟩

theorem lookupDir_append_some (dir l : List (List Char × File))
    (k : List Char) (v : File) (h : lookupDir dir k = some v) :
    lookupDir (dir ++ l) k = some v := by
  induction dir with
  | nil => rw [lookupDir] at h; cases h
  | cons e rest ih =>
    obtain ⟨k0, v0⟩ := e
    rw [List.cons_append, lookupDir]
    rw [lookupDir] at h
    split_ifs at h with he
    · rw [if_pos he]
      exact h
    · rw [if_neg he]
      exact ih h

theorem lookupDir_append_none (dir l : List (List Char × File))
    (k : List Char) (h : lookupDir dir k = none) :
    lookupDir (dir ++ l) k = lookupDir l k := by
  induction dir with
  | nil => rfl
  | cons e rest ih =>
    obtain ⟨k0, v0⟩ := e
    rw [List.cons_append, lookupDir]
    rw [lookupDir] at h
    split_ifs at h with he
    rw [if_neg he]
    exact ih h

theorem lookupDir_append_cases (dir l : List (List Char × File))
    (k : List Char) (v : File) (h : lookupDir (dir ++ l) k = some v) :
    lookupDir dir k = some v ∨
      (lookupDir dir k = none ∧ lookupDir l k = some v) := by
  cases hd : lookupDir dir k with
  | some w =>
    left
    rw [lookupDir_append_some dir l k w hd] at h
    obtain rfl : w = v := Option.some.inj h
    rfl
  | none =>
    right
    rw [lookupDir_append_none dir l k hd] at h
    exact ⟨rfl, h⟩

theorem setIndexStep_preserves (filename : List Char)
    (dir : List (List Char × File)) (m k : List Char) (v : File)
    (h : lookupDir dir k = some v) :
    lookupDir (setIndexStep filename dir m) k = some v := by
  cases hm : lookupDir dir m with
  | none => simp only [setIndexStep, hm]; exact h
  | some w =>
    simp only [setIndexStep, hm]
    split_ifs with h1 h2
    · exact lookupDir_append_some _ _ _ _ h
    · exact h
    · exact h

theorem setIndexStep_canonical (filename : List Char)
    (dir : List (List Char × File)) (m : List Char)
    (hcanon : ∀ k v, lookupDir dir k = some v →
      isAbs k = true ∧ clean k = k) :
    ∀ k v, lookupDir (setIndexStep filename dir m) k = some v →
      isAbs k = true ∧ clean k = k := by
  cases hm : lookupDir dir m with
  | none => simp only [setIndexStep, hm]; exact hcanon
  | some w =>
    simp only [setIndexStep, hm]
    split_ifs with h1 h2
    · intro k v hk
      rcases lookupDir_append_cases dir _ k v hk with hk' | ⟨_, hk'⟩
      · exact hcanon k v hk'
      · rw [lookupDir] at hk'
        split_ifs at hk' with he
        · rw [← he]
          exact canonical_dirOf m (hcanon m w hm)
        · cases hk'
    · exact hcanon
    · exact hcanon

theorem setIndexStep_alias (filename : List Char)
    (dir : List (List Char × File)) (m K : List Char) (V : File)
    (hcanon : ∀ k v, lookupDir dir k = some v →
      isAbs k = true ∧ clean k = k)
    (hK : lookupDir dir K = some V) (hbK : base K = filename)
    (hinv : lookupDir dir (dirOf K) = none ∨
      lookupDir dir (dirOf K) = some V) :
    lookupDir (setIndexStep filename dir m) (dirOf K) = none ∨
      lookupDir (setIndexStep filename dir m) (dirOf K) = some V := by
  cases hm : lookupDir dir m with
  | none => simp only [setIndexStep, hm]; exact hinv
  | some w =>
    simp only [setIndexStep, hm]
    split_ifs with h1 h2
    · rcases hinv with hnone | hsome
      · by_cases heq : dirOf m = dirOf K
        · right
          have hmc := hcanon m w hm
          have hKc := hcanon K V hK
          have hmK : m = K :=
            canonical_key_unique m K hmc hKc (by rw [h1, hbK]) heq
          subst hmK
          obtain rfl : w = V := by
            rw [hK] at hm
            exact (Option.some.inj hm).symm
          rw [lookupDir_append_none dir _ _ hnone]
          rw [lookupDir]
          rw [if_pos heq]
        · left
          rw [lookupDir_append_none dir _ _ hnone]
          rw [lookupDir]
          rw [if_neg heq]
          rfl
      · right
        exact lookupDir_append_some _ _ _ _ hsome
    · exact hinv
    · exact hinv

theorem setIndex_preserves (filename : List Char)
    (visits : List (List Char)) :
    ∀ (dir : List (List Char × File)) (k : List Char) (v : File),
    lookupDir dir k = some v →
    lookupDir (setIndex filename dir visits) k = some v := by
  induction visits with
  | nil => intro dir k v h; exact h
  | cons m rest ih =>
    intro dir k v h
    exact ih _ k v (setIndexStep_preserves filename dir m k v h)

theorem setIndex_alias_aux (filename K : List Char) (V : File)
    (hbK : base K = filename) :
    ∀ (visits : List (List Char)) (dir : List (List Char × File)),
    (∀ k v, lookupDir dir k = some v → isAbs k = true ∧ clean k = k) →
    lookupDir dir K = some V →
    (lookupDir dir (dirOf K) = none ∨ lookupDir dir (dirOf K) = some V) →
    (K ∈ visits ∨ lookupDir dir (dirOf K) = some V) →
    lookupDir (setIndex filename dir visits) (dirOf K) = some V := by
  intro visits
  induction visits with
  | nil =>
    intro dir _ _ _ hdisj
    rcases hdisj with hin | hsome
    · cases hin
    · exact hsome
  | cons m rest ih =>
    intro dir hcanon hK hinv hdisj
    have hcanon' := setIndexStep_canonical filename dir m hcanon
    have hK' := setIndexStep_preserves filename dir m K V hK
    have hinv' := setIndexStep_alias filename dir m K V hcanon hK hbK hinv
    refine ih _ hcanon' hK' hinv' ?_
    rcases hdisj with hin | hsome
    · rcases List.mem_cons.mp hin with rfl | hin
      · right
        simp only [setIndexStep, hK]
        rw [if_pos hbK]
        rcases hinv with hnone | hsome
        · rw [if_pos hnone]
          rw [lookupDir_append_none dir _ _ hnone]
          rw [lookupDir]
          rw [if_pos rfl]
        · rw [if_neg (by rw [hsome]; exact Option.some_ne_none V)]
          exact hsome
      · left
        exact hin
    · right
      exact setIndexStep_preserves filename dir m _ V hsome

/-- Claim C9: after `SetIndex(filename)` — modelled over any visit sequence
that covers every key registered before the call — every pre-existing route
still maps to its original `FileEntry` (first-registered wins, nothing is
replaced), and for every pre-existing entry whose basename is `filename`
the parent path `Dir(k)` maps to that entry's `FileEntry`, unless the
parent path was already registered before the call.  The pre-existing keys
are absolute and canonical, as the loader's directory check guarantees. -/
theorem set_index (dir0 : List (List Char × File)) (filename : List Char)
    (visits : List (List Char))
    (hcanon : ∀ k v, lookupDir dir0 k = some v →
      isAbs k = true ∧ clean k = k)
    (hvis : ∀ k v, lookupDir dir0 k = some v → k ∈ visits) :
    (∀ k v, lookupDir dir0 k = some v →
      lookupDir (setIndex filename dir0 visits) k = some v) ∧
    (∀ k v, lookupDir dir0 k = some v → base k = filename →
      lookupDir (setIndex filename dir0 visits) (dirOf k) = some v ∨
        ∃ w, lookupDir dir0 (dirOf k) = some w) := by
  constructor
  · intro k v h
    exact setIndex_preserves filename visits dir0 k v h
  · intro k v h hb
    cases hP : lookupDir dir0 (dirOf k) with
    | some w => exact Or.inr ⟨w, rfl⟩
    | none =>
      left
      exact setIndex_alias_aux filename k v hb visits dir0 hcanon h
        (Or.inl hP) (Or.inl (hvis k v h))

/-- Witness for C9: with a single entry `/docs/index.html` and index
filename `index.html`, the alias `/docs` routes to the same file. -/
theorem set_index_witness :
    lookupDir
        (setIndex ("index.html").data
          [(("/docs/index.html").data, exampleFile)]
          [("/docs/index.html").data])
        (("/docs").data) = some exampleFile ∨
      ∃ w, lookupDir [(("/docs/index.html").data, exampleFile)]
        (("/docs").data) = some w := by
  have t := set_index [(("/docs/index.html").data, exampleFile)]
    ("index.html").data [("/docs/index.html").data] ?hc ?hv
  case hc =>
    intro k v h
    rw [lookupDir] at h
    split_ifs at h with he
    · rw [← he]
      exact ⟨by decide, by decide⟩
    · cases h
  case hv =>
    intro k v h
    rw [lookupDir] at h
    split_ifs at h with he
    · rw [← he]
      exact List.mem_cons_self _ _
    · cases h
  have hmain := t.2 ("/docs/index.html").data exampleFile (by decide)
    (by decide)
  exact (show dirOf ("/docs/index.html").data = ("/docs").data
    by decide) ▸ hmain

end Htpack
